import Mathlib

/-!
Verification of the temporal-alignment and signal-conditioning core of the
VidView repository (a video/spectra viewer), against its natural-language
specification.  Python code is shallowly embedded: floating-point timestamps
and intensities are modelled as exact rationals, Python dictionaries as
association lists, raised exceptions as `Option`/`Except` error values.
-/

namespace VidView

/-- A spectral record as handled by `src/viewer/data_utils.py`: a `timestamp`
field plus the remaining (channel-key, intensity) cells of the CSV row.
Python float values are modelled as rationals. -/
structure Row where
  timestamp : ℚ
  values : List (String × ℚ)
deriving DecidableEq, Repr

/-- `bisect.bisect_left` from the Python standard library, as used on an
ascending `timestamps` list: the leftmost insertion point of `x`, i.e. the
length of the longest prefix of entries strictly below `x`. -/
def bisect_left (timestamps : List ℚ) (x : ℚ) : ℕ :=
  (timestamps.takeWhile (fun t => decide (t < x))).length

/-- `nearest_by_timestamp` from `src/viewer/data_utils.py`.  `none` models the
raised `ValueError("data must not be empty")`.  The two `getD` reads are the
`before`/`after` timestamps; in the branch where they are read the index is
strictly between `0` and `len`, so the defaults are never used. -/
def nearest_by_timestamp (data : List Row) (timestamp : ℚ) : Option Row :=
  if data.isEmpty then none
  else
    let timestamps := data.map Row.timestamp
    let idx := bisect_left timestamps timestamp
    if idx = 0 then data.head?
    else if idx = timestamps.length then data.getLast?
    else
      let before := timestamps.getD (idx - 1) 0
      let after := timestamps.getD idx 0
      if timestamp - before ≤ after - timestamp then data[idx - 1]? else data[idx]?

/-- Index-level companion of `nearest_by_timestamp`: the position of the record
it selects (meaningful for non-empty input). -/
def nearestIdx (ts : List ℚ) (q : ℚ) : ℕ :=
  if bisect_left ts q = 0 then 0
  else if bisect_left ts q = ts.length then ts.length - 1
  else if q - ts.getD (bisect_left ts q - 1) 0 ≤ ts.getD (bisect_left ts q) 0 - q
  then bisect_left ts q - 1 else bisect_left ts q

/-- Python `abs` on a rational. -/
def pyAbs (x : ℚ) : ℚ := if x < 0 then -x else x

/-- Python binary `min`: the first argument on ties. -/
def pyMin (a b : ℚ) : ℚ := if a ≤ b then a else b

/-- `MainViewerWindow._find_nearest_frame_index` from `src/viewer.py`, with the
`datetime` values obtained from `strptime` abstracted as rationals on the time
axis (parsing a fixed-format string is a strictly monotone embedding, so
absolute-difference comparisons are preserved).  `diffs.index(min(diffs))` is
the first index attaining the minimal absolute difference; `none` models the
`ValueError` that `min([])` raises on an empty frame-time list. -/
def find_nearest_frame_index (frame_times : List ℚ) (target : ℚ) : Option ℕ :=
  let diffs := frame_times.map (fun s => pyAbs (s - target))
  match diffs with
  | [] => none
  | d :: ds => some ((d :: ds).findIdx (fun x => decide (x = ds.foldl pyMin d)))

/-- Python `str.isdigit` on one character, restricted to the ASCII decimal
digits that occur in this data: code point between 48 and 57. -/
def isDigitCh (c : Char) : Bool := 48 ≤ c.toNat && c.toNat ≤ 57

/-- ASCII lowering, modelling Python `str.lower` on the ASCII keys and tokens
handled here. -/
def lowerCh (c : Char) : Char :=
  if 65 ≤ c.toNat && c.toNat ≤ 90 then Char.ofNat (c.toNat + 32) else c

def lowerChars (cs : List Char) : List Char := cs.map lowerCh

/-- The whitespace stripped by Python `str.strip` (ASCII subset). -/
def isWSCh (c : Char) : Bool := c = ' ' || c = '\t' || c = '\n' || c = '\r'

/-- Numeric value of a run of decimal digit characters. -/
def digitsToNat (cs : List Char) : ℕ := cs.foldl (fun n c => 10 * n + (c.toNat - 48)) 0

/-- Model of Python `float(s)` on plain decimal literals: optional sign,
integer digits, optional dot and fraction digits (accepting `5`, `5.`, `.5`,
`-2.75`).  Exponent, `inf` and `nan` spellings never occur as wavelength keys
or table cells in this data and are not modelled; on them the model returns
`none` like on any other non-numeric text. -/
def parseRat (s : String) : Option ℚ :=
  let cs := s.toList
  let neg : Bool := cs.headD ' ' = '-'
  let body := if neg || cs.headD ' ' = '+' then cs.tail else cs
  let intPart := body.takeWhile (fun c => !(c = '.'))
  let fracPart := (body.dropWhile (fun c => !(c = '.'))).tail
  if intPart.all isDigitCh && fracPart.all isDigitCh &&
      (!intPart.isEmpty || !fracPart.isEmpty) then
    let mag : ℚ := (digitsToNat intPart : ℚ) +
      (digitsToNat fracPart : ℚ) / (10 : ℚ) ^ fracPart.length
    some (if neg then -mag else mag)
  else none

/-- `pat` occurs at the start of `s`. -/
def startsWithSeq : List Char → List Char → Bool
  | _, [] => true
  | [], _ :: _ => false
  | c :: cs, p :: ps => c = p && startsWithSeq cs ps

/-- Python `pat in s`: `pat` occurs contiguously somewhere in `s`. -/
def containsSeq : List Char → List Char → Bool
  | [], pat => pat.isEmpty
  | c :: cs, pat => startsWithSeq (c :: cs) pat || containsSeq cs pat

/-- Key selection of `MainViewerWindow._plot_spectra` (`src/viewer.py`): every
key of the record except `timestamp`, keeping only keys accepted by
`float(...)`, then `sorted(keys, key=float)` — a stable sort by numeric key
value, modelled by insertion sort. -/
def mainwindow_plot_keys (row : List (String × ℚ)) : List String :=
  let keys := (row.map Prod.fst).filter
    (fun k => decide (k ≠ "timestamp") && (parseRat k).isSome)
  keys.insertionSort (fun a b => (parseRat a).getD 0 ≤ (parseRat b).getD 0)

/-- Key selection of `VideoSpectraViewer._plot_spectra`
(`src/viewer/video_spectra_viewer.py`), the `x` list: drop `timestamp` and any
key whose lowering contains `integration`; the remaining keys keep their
record order. -/
def vsv_plot_keys (spectra : List (String × ℚ)) : List String :=
  (spectra.map Prod.fst).filter
    (fun k => decide (k ≠ "timestamp") &&
      !(containsSeq (lowerChars k.toList) ("integration".toList)))

/-- The `y = [spectra[k] for k in x]` list of `VideoSpectraViewer._plot_spectra`
(the keys come from the record itself, so the lookup always succeeds and the
`getD` default is never used). -/
def channel_y (spectra : List (String × ℚ)) : List ℚ :=
  (vsv_plot_keys spectra).map (fun k => (spectra.lookup k).getD 0)

/-- The key normalisation `key.lower().replace(" ", "")` used when searching
for an integration-time alias. -/
def normKey (k : String) : List Char :=
  (lowerChars k.toList).filter (fun c => c ≠ ' ')

def isIntegrationAlias (k : String) : Bool :=
  normKey k = "integrationtime".toList || normKey k = "integration_time".toList ||
    normKey k = "integration".toList

/-- The integration-time search loop of `VideoSpectraViewer._plot_spectra`:
the value at the first key matching an alias, if any. -/
def findIntegration (spectra : List (String × ℚ)) : Option ℚ :=
  (spectra.find? (fun p => isIntegrationAlias p.1)).map Prod.snd

/-- The dark-subtraction step of `VideoSpectraViewer._plot_spectra`
(`data_subtracted`): the dark reference loaded by `_load_dark_reference` is a
dict keyed by integration time, modelled as an association list.  The Python
guard `if dark and len(dark) == len(y)` treats a missing entry and an empty
intensity vector alike as falsy. -/
def plot_subtracted (spectra : List (String × ℚ)) (dark_map : List (ℚ × List ℚ)) : List ℚ :=
  let y := channel_y spectra
  match (findIntegration spectra).bind (fun it => dark_map.lookup it) with
  | some dark =>
    if !dark.isEmpty && dark.length == y.length then
      y.zipWith (fun v d => v - d) dark
    else y
  | none => y

/-- `smooth_row` inside `apply_fir_filter` (the pure-Python fallback path in
`src/viewer/video_spectra_viewer.py`): replicate-pad by `numtaps // 2` on each
side and take the coefficient-weighted sum of each `numtaps`-wide window
(`zip` truncates at the shorter list, like the Python `zip`).  `none` models
the `IndexError` Python raises on `row[0]` for an empty row. -/
def smooth_row (numtaps : ℕ) (row : List ℚ) : Option (List ℚ) :=
  match row.head?, row.getLast? with
  | some hd, some lst =>
    let coeffs : List ℚ := List.replicate numtaps (1 / (numtaps : ℚ))
    let padding := numtaps / 2
    let padded := List.replicate padding hd ++ row ++ List.replicate padding lst
    some ((List.range row.length).map (fun i =>
      (List.zipWith (fun c x => c * x) coeffs ((padded.drop i).take numtaps)).sum))
  | _, _ => none

/-- The fallback branch of `apply_fir_filter`: `none` models a raised
exception — `ZeroDivisionError` from `1.0 / numtaps` when `numtaps = 0`, or
the `IndexError` from `smooth_row` on an empty row. -/
def apply_fir_filter_fallback (rows : List (List ℚ)) (numtaps : ℕ) :
    Option (List (List ℚ)) :=
  if numtaps = 0 then none
  else rows.mapM (smooth_row numtaps)

/-- `scipy.signal.lfilter(b, 1.0, x)`: the causal FIR filter
`y n = sum over k of b k * x (n - k)`, one output sample per input sample. -/
def lfilter_fir (b : List ℚ) (x : List ℚ) : List ℚ :=
  (List.range x.length).map (fun n =>
    ((List.range b.length).map
      (fun k => if k ≤ n then b.getD k 0 * x.getD (n - k) 0 else 0)).sum)

/-- The optimized branch of `apply_fir_filter`: `firwin` designs `numtaps`
floating-point window coefficients — a transcendental computation outside the
embedding — which reach the result only through `lfilter`; they are therefore
abstracted as the parameter `fir_coeff`.  `np.asarray(rows, dtype=float)`
requires a rectangular nested list and raises `ValueError` on ragged input
(modelled `none`); an empty `rows` gives a 1-D empty array, which the
`arr.ndim == 1` branch reshapes to shape `(1, 0)` — a single empty row;
otherwise `np.apply_along_axis(..., axis=1, ...)` runs `lfilter` on every
row. -/
def apply_fir_filter_optimized (fir_coeff : List ℚ) (rows : List (List ℚ)) :
    Option (List (List ℚ)) :=
  if rows.isEmpty then some [[]]
  else if rows.all (fun r => r.length == (rows.headD []).length) then
    some (rows.map (lfilter_fir fir_coeff))
  else none

/-- Python `str.strip` on a list of characters. -/
def trimChars (cs : List Char) : List Char :=
  ((cs.dropWhile isWSCh).reverse.dropWhile isWSCh).reverse

/-- Python `s.split(",")`. -/
def splitOnComma : List Char → List (List Char)
  | [] => [[]]
  | c :: cs =>
    if c = ',' then [] :: splitOnComma cs
    else
      match splitOnComma cs with
      | [] => [[c]]
      | p :: ps => (c :: p) :: ps

/-- Python `str.isdigit` on a whole token: non-empty and all digits. -/
def pyIsDigit (cs : List Char) : Bool := !cs.isEmpty && cs.all isDigitCh

/-- Modelled from the spec: the strict timestamp check `_validate_timestamp`
(`src/data_handler.py`) matches text against `constants.TS_FORMAT`, and the
module `constants` is not among the provided sources.  The spec fixes one
textual format — date+time with microsecond precision — and the repository
tests shape timestamps like `20200101_000000.000000`, so the format is
modelled as 8 digits, underscore, 6 digits, dot, 6 digits.  (The calendar
range checks that `datetime.strptime` additionally performs are abstracted
away; no claim depends on them.) -/
def isValidTs (cs : List Char) : Bool :=
  pyIsDigit (cs.take 8) && cs.length == 22 &&
    cs.getD 8 '0' = '_' && pyIsDigit ((cs.drop 9).take 6) &&
    cs.getD 15 '0' = '.' && pyIsDigit (cs.drop 16)

/-- One iteration of the `parse_frame_times` loop (`src/data_handler.py`):
`.ok none` models `continue` (the line contributes nothing), `.ok (some ts)`
the append of a validated timestamp, `.error` the `ValueError` raised by
`_validate_timestamp`.  The comma-handling block reassigns the candidate to
the last field when the first token starts (lowered) with `frame` or is a
bare integer, and the `timestamp` header skip tests the reassigned candidate,
only on comma-containing lines — exactly as in the source. -/
def processFrameTimeLine (line : List Char) : Except String (Option (List Char)) :=
  let ts0 := trimChars line
  if ts0.isEmpty then .ok none
  else
    let hasComma := ts0.contains ','
    let parts := (splitOnComma ts0).map trimChars
    let firstTok := parts.headD []
    let ts1 :=
      if hasComma &&
          (startsWithSeq (lowerChars firstTok) ("frame".toList) || pyIsDigit firstTok) &&
          parts.length > 1
      then parts.getLastD ts0 else ts0
    if hasComma && startsWithSeq (lowerChars ts1) ("timestamp".toList) then .ok none
    else if ts1 = "FILE_START".toList then .ok none
    else if isValidTs ts1 then .ok (some ts1)
    else .error ("Invalid timestamp: " ++ String.mk ts1)

/-- The loop of `parse_frame_times` over all lines; the first error wins. -/
def collectFrameTimes : List (List Char) → Except String (List (List Char))
  | [] => .ok []
  | line :: rest =>
    match processFrameTimeLine line with
    | .error e => .error e
    | .ok r =>
      match collectFrameTimes rest with
      | .error e => .error e
      | .ok ts => .ok (match r with | none => ts | some t => t :: ts)

/-- `parse_frame_times` (`src/data_handler.py`) on the lines of the file (the
file path inside the Python error messages is abstracted away). -/
def parse_frame_times (lines : List (List Char)) : Except String (List (List Char)) :=
  match collectFrameTimes lines with
  | .error e => .error e
  | .ok ts => if ts.isEmpty then .error "No frame times found" else .ok ts

def digitCh (d : ℕ) : Char := Char.ofNat (48 + d)

/-- Decimal rendering of a natural number, as Python `str(i)` renders the
frame counter written by `write_csv`; the first argument is recursion fuel
(`n + 1` always suffices since `n` loses a digit per step). -/
def natDecimalGo : ℕ → ℕ → List Char → List Char
  | 0, _, acc => acc
  | fuel + 1, n, acc =>
    if n < 10 then digitCh n :: acc
    else natDecimalGo fuel (n / 10) (digitCh (n % 10) :: acc)

def natDecimal (n : ℕ) : List Char := natDecimalGo (n + 1) n []

/-- The in-memory table assembled by `write_csv` (`src/output_writer.py`)
before serialization: frame index, frame timestamp, aligned spectral
timestamp, spectral value columns truncated to the frame count, metadata. -/
structure OutputCSV where
  frames : List ℕ
  frame_timestamps : List (List Char)
  spectral_timestamps : List (List Char)
  spectral_values : List (String × List ℚ)
  metadata : List (String × List ℚ)
deriving DecidableEq, Repr

/-- `write_csv` from `src/output_writer.py`.  The spectral dataset arrives as
its timestamp column plus the remaining value columns (projecting away the
`timestamp` column is the `drop(columns=["timestamp"])`).  The pandas column
assignment `output["spectral_timestamp"] = trimmed_spec["timestamp"].tolist()`
raises `ValueError("Length of values ... does not match length of index ...")`
when the assigned list is shorter than the frame count; the surrounding
`except` wraps every failure as `IOError("Failed to write CSV: <cause>")`,
modelled by the error-string prefix.  (Failures of the final `to_csv` disk
write are environmental and outside the embedding.) -/
def write_csv (frame_times : List (List Char)) (spectral_ts : List (List Char))
    (spectral_cols : List (String × List ℚ)) (metadata : List (String × List ℚ)) :
    Except String OutputCSV :=
  let n := frame_times.length
  let trimmed_ts := spectral_ts.take n
  if trimmed_ts.length ≠ n then
    .error ("Failed to write CSV: Length of values does not match length of index")
  else
    .ok { frames := List.range n
          frame_timestamps := frame_times
          spectral_timestamps := trimmed_ts
          spectral_values := spectral_cols.map (fun c => (c.1, c.2.take n))
          metadata := metadata }

/-- The `frame`/`frame_timestamp` columns of the file written by `write_csv`:
pandas `to_csv(index=False)` renders the header row followed by one
`<frame>,<timestamp>` row per frame (the fields contain no comma, quote or
newline, so csv quoting never triggers). -/
def exported_frame_time_lines (out : OutputCSV) : List (List Char) :=
  ("frame,frame_timestamp".toList) ::
    (out.frames.zip out.frame_timestamps).map (fun p => natDecimal p.1 ++ ',' :: p.2)

/-- `FrameMetadata` from `src/viewer/video_spectra_viewer.py`; the controls
dict is modelled as an association list with distinct keys. -/
structure FrameMetadata where
  timestamp : ℚ
  controls : List (String × ℚ)
deriving DecidableEq, Repr

/-- Python string comparison, lexicographic by code point (the order used by
`sorted` on the control-key strings). -/
def strLeChars : List Char → List Char → Bool
  | [], _ => true
  | _ :: _, [] => false
  | a :: as, b :: bs =>
    if a.toNat < b.toNat then true
    else if b.toNat < a.toNat then false
    else strLeChars as bs

def strLe (a b : String) : Bool := strLeChars a.toList b.toList

/-- The union of control keys gathered by `save_metadata` (`all_keys`): a set
accumulated over the log, then `sorted(...)` — modelled as lexicographic sort
of the deduplicated key list. -/
def metadata_all_keys (log : List FrameMetadata) : List String :=
  ((log.foldl (fun acc m => acc ++ m.controls.map Prod.fst) []).dedup).insertionSort
    (fun a b => strLe a b = true)

/-- The CSV content decided by `VideoSpectraViewer.save_metadata`: the header
(fieldnames) and one row of cells per `FrameMetadata`, a cell being `none`
for the empty string written when the record lacks the key.  `none` models
the early return on an empty control log (no rows are written). -/
def save_metadata_out (log : List FrameMetadata) :
    Option (List String × List (ℚ × List (Option ℚ))) :=
  if log.isEmpty then none
  else
    let keys := metadata_all_keys log
    some ("timestamp" :: keys,
      log.map (fun m => (m.timestamp, keys.map (fun k => m.controls.lookup k))))

/-- Assignment `updated[header] = v` on a Python dict modelled as an
association list: overwrite in place when the key exists, else append. -/
def dictInsert (d : List (String × ℚ)) (k : String) (v : ℚ) : List (String × ℚ) :=
  if d.any (fun p => decide (p.1 = k)) then
    d.map (fun p => if p.1 = k then (k, v) else p)
  else d ++ [(k, v)]

/-- `VideoSpectraViewer._save_metadata_from_table`: one cell per table column
as `(header item, value item)`, `none` marking a missing `QTableWidgetItem`
(such columns are skipped).  Returns the rebuilt `updated` dict that replaces
`metadata.controls`, together with the warning messages shown on the status
bar (the source quotes the column name inside the message; the quoting is not
modelled). -/
def save_metadata_from_table (cells : List (Option String × Option String)) :
    List (String × ℚ) × List String :=
  cells.foldl
    (fun acc cell =>
      match cell with
      | (some header, some text) =>
        match parseRat text with
        | some v => (dictInsert acc.1 header v, acc.2)
        | none => (acc.1, acc.2 ++ ["Invalid value in column " ++ header])
      | _ => acc)
    ([], [])

/-! ### Helper lemmas: binary search and sorted access -/

theorem bisect_left_cons (t : ℚ) (ts : List ℚ) (q : ℚ) :
    bisect_left (t :: ts) q = if t < q then bisect_left ts q + 1 else 0 := by
  simp only [bisect_left, List.takeWhile_cons]
  by_cases h : t < q <;> simp [h]

theorem bisect_left_le_length (ts : List ℚ) (q : ℚ) : bisect_left ts q ≤ ts.length := by
  induction ts with
  | nil => simp [bisect_left]
  | cons t ts ih =>
    rw [bisect_left_cons]
    split
    · simp
      omega
    · simp

theorem getElem_lt_of_lt_bisect {ts : List ℚ} {q : ℚ} {i : ℕ}
    (hi : i < ts.length) (h : i < bisect_left ts q) : ts[i] < q := by
  induction ts generalizing i with
  | nil => simp at hi
  | cons t ts ih =>
    rw [bisect_left_cons] at h
    split at h
    · cases i with
      | zero => simpa using by assumption
      | succ j =>
        simp only [List.getElem_cons_succ]
        exact ih (by simpa using hi) (by omega)
    · omega

theorem le_getElem_of_eq_bisect {ts : List ℚ} {q : ℚ} {i : ℕ}
    (hi : i < ts.length) (h : i = bisect_left ts q) : q ≤ ts[i] := by
  induction ts generalizing i with
  | nil => simp at hi
  | cons t ts ih =>
    rw [bisect_left_cons] at h
    by_cases hlt : t < q
    · rw [if_pos hlt] at h
      cases i with
      | zero => omega
      | succ j =>
        simp only [List.getElem_cons_succ]
        exact ih (by simpa using hi) (by omega)
    · rw [if_neg hlt] at h
      subst h
      simpa using le_of_not_lt hlt

theorem bisect_left_eq_length_iff {ts : List ℚ} {q : ℚ} :
    bisect_left ts q = ts.length ↔ ∀ t ∈ ts, t < q := by
  induction ts with
  | nil => simp [bisect_left]
  | cons t ts ih =>
    rw [bisect_left_cons]
    constructor
    · intro h
      split at h
      · intro s hs
        rcases List.mem_cons.mp hs with rfl | hmem
        · assumption
        · exact ih.mp (by simpa using h) s hmem
      · simp at h
    · intro h
      have ht : t < q := h t (List.mem_cons_self t ts)
      rw [if_pos ht, ih.mpr fun s hs => h s (List.mem_cons_of_mem t hs)]
      simp

theorem sorted_getElem_mono {ts : List ℚ} (hs : List.Sorted (· ≤ ·) ts)
    {i j : ℕ} (hi : i < ts.length) (hj : j < ts.length) (hij : i ≤ j) :
    ts[i] ≤ ts[j] := by
  rcases Nat.lt_or_ge i j with h | h
  · exact List.pairwise_iff_getElem.mp hs i j hi hj h
  · have : i = j := by omega
    subst this
    exact le_refl _

theorem getD_eq_getElem_of_lt {α : Type} (l : List α) (d : α) (i : ℕ)
    (h : i < l.length) : l.getD i d = l[i] := by
  simp [List.getD_eq_getElem?_getD, List.getElem?_eq_getElem h]

theorem abs_sub_of_le {a b : ℚ} (h : a ≤ b) : |a - b| = b - a := by
  rw [abs_sub_comm]
  exact abs_of_nonneg (by linarith)

/-- The record returned by `nearest_by_timestamp` is the one at position
`nearestIdx` (for non-empty data). -/
theorem nearest_by_timestamp_eq_getElem (data : List Row) (q : ℚ) (h : data ≠ []) :
    nearest_by_timestamp data q = data[nearestIdx (data.map Row.timestamp) q]? := by
  unfold nearest_by_timestamp nearestIdx
  simp only [List.isEmpty_eq_true, h, if_false]
  set ts := data.map Row.timestamp with hts
  have hlen : ts.length = data.length := by simp [hts]
  by_cases h0 : bisect_left ts q = 0
  · simp [h0, List.head?_eq_getElem?]
  · by_cases hL : bisect_left ts q = ts.length
    · simp [h0, hL, List.getLast?_eq_getElem?, hlen, h]
    · simp only [h0, hL, if_false]
      split <;> rfl

theorem nearestIdx_lt_length {ts : List ℚ} (q : ℚ) (h : ts ≠ []) :
    nearestIdx ts q < ts.length := by
  have hlen : 0 < ts.length := List.length_pos.mpr h
  have hb := bisect_left_le_length ts q
  unfold nearestIdx
  by_cases h0 : bisect_left ts q = 0
  · simpa [h0]
  · by_cases hL : bisect_left ts q = ts.length
    · simp only [h0, hL, if_false, if_true, h]
      simp [h]
      omega
    · simp only [h0, hL, if_false]
      split <;> omega

theorem nearestIdx_of_bisect_zero {ts : List ℚ} {q : ℚ}
    (h : bisect_left ts q = 0) : nearestIdx ts q = 0 := by
  unfold nearestIdx
  simp [h]

theorem nearestIdx_of_bisect_length {ts : List ℚ} {q : ℚ}
    (h : bisect_left ts q = ts.length) (hne : ts ≠ []) :
    nearestIdx ts q = ts.length - 1 := by
  have hpos : 0 < ts.length := List.length_pos.mpr hne
  unfold nearestIdx
  have h0 : ¬ bisect_left ts q = 0 := by omega
  rw [if_neg h0, if_pos h]

/-- Branch analysis of `nearestIdx`. -/
theorem nearestIdx_cases (ts : List ℚ) (q : ℚ) (hne : ts ≠ []) :
    (bisect_left ts q = 0 ∧ nearestIdx ts q = 0) ∨
    (bisect_left ts q = ts.length ∧ 0 < bisect_left ts q ∧
      nearestIdx ts q = ts.length - 1) ∨
    (0 < bisect_left ts q ∧ bisect_left ts q < ts.length ∧
      ((q - ts.getD (bisect_left ts q - 1) 0 ≤ ts.getD (bisect_left ts q) 0 - q ∧
        nearestIdx ts q = bisect_left ts q - 1) ∨
       (¬(q - ts.getD (bisect_left ts q - 1) 0 ≤ ts.getD (bisect_left ts q) 0 - q) ∧
        nearestIdx ts q = bisect_left ts q))) := by
  have hpos : 0 < ts.length := List.length_pos.mpr hne
  have hle := bisect_left_le_length ts q
  by_cases h0 : bisect_left ts q = 0
  · exact Or.inl ⟨h0, nearestIdx_of_bisect_zero h0⟩
  · by_cases hL : bisect_left ts q = ts.length
    · exact Or.inr (Or.inl ⟨hL, by omega, nearestIdx_of_bisect_length hL hne⟩)
    · refine Or.inr (Or.inr ⟨by omega, by omega, ?_⟩)
      by_cases hc : q - ts.getD (bisect_left ts q - 1) 0 ≤ ts.getD (bisect_left ts q) 0 - q
      · refine Or.inl ⟨hc, ?_⟩
        unfold nearestIdx
        rw [if_neg h0, if_neg hL, if_pos hc]
      · refine Or.inr ⟨hc, ?_⟩
        unfold nearestIdx
        rw [if_neg h0, if_neg hL, if_neg hc]

/-- The record position selected by `nearestIdx` attains the minimal absolute
timestamp distance over the (ascending sorted) dataset. -/
theorem nearestIdx_min {ts : List ℚ} {q : ℚ} (hs : List.Sorted (· ≤ ·) ts)
    (hne : ts ≠ []) {j : ℕ} (hj : j < ts.length)
    (hsel : nearestIdx ts q < ts.length) :
    |ts[nearestIdx ts q] - q| ≤ |ts[j] - q| := by
  have hpos : 0 < ts.length := List.length_pos.mpr hne
  rcases nearestIdx_cases ts q hne with ⟨hb, hsel0⟩ | ⟨hb, hbpos, hsel0⟩ |
    ⟨hbpos, hblt, hcase⟩
  · have hq0 : q ≤ ts[0] := le_getElem_of_eq_bisect hpos hb.symm
    have hmono : ts[0] ≤ ts[j] := sorted_getElem_mono hs hpos hj (by omega)
    simp only [hsel0]
    rw [abs_of_nonneg (by linarith), abs_of_nonneg (by linarith)]
    linarith
  · have hall := bisect_left_eq_length_iff.mp hb
    have hjq : ts[j] < q := hall _ (List.getElem_mem hj)
    have hLq : ts[ts.length - 1] < q := hall _ (List.getElem_mem (by omega))
    have hmono : ts[j] ≤ ts[ts.length - 1] :=
      sorted_getElem_mono hs hj (by omega) (by omega)
    simp only [hsel0]
    rw [abs_sub_of_le (le_of_lt hLq), abs_sub_of_le (le_of_lt hjq)]
    linarith
  · have hbm1 : bisect_left ts q - 1 < ts.length := by omega
    rw [getD_eq_getElem_of_lt _ _ _ hbm1, getD_eq_getElem_of_lt _ _ _ hblt] at hcase
    have hbefore : ts[bisect_left ts q - 1] < q :=
      getElem_lt_of_lt_bisect hbm1 (by omega)
    have hafter : q ≤ ts[bisect_left ts q] := le_getElem_of_eq_bisect hblt rfl
    rcases hcase with ⟨hc, hsel0⟩ | ⟨hc, hsel0⟩
    · simp only [hsel0]
      rw [abs_sub_of_le (le_of_lt hbefore)]
      rcases Nat.lt_or_ge j (bisect_left ts q) with hjlt | hjge
      · have hmono : ts[j] ≤ ts[bisect_left ts q - 1] :=
          sorted_getElem_mono hs hj hbm1 (by omega)
        have hjq : ts[j] < q := getElem_lt_of_lt_bisect hj hjlt
        rw [abs_sub_of_le (le_of_lt hjq)]
        linarith
      · have hmono : ts[bisect_left ts q] ≤ ts[j] :=
          sorted_getElem_mono hs hblt hj hjge
        rw [abs_of_nonneg (by linarith)]
        linarith
    · simp only [hsel0]
      rw [abs_of_nonneg (by linarith)]
      rcases Nat.lt_or_ge j (bisect_left ts q) with hjlt | hjge
      · have hmono : ts[j] ≤ ts[bisect_left ts q - 1] :=
          sorted_getElem_mono hs hj hbm1 (by omega)
        have hjq : ts[j] < q := getElem_lt_of_lt_bisect hj hjlt
        rw [abs_sub_of_le (le_of_lt hjq)]
        linarith
      · have hmono : ts[bisect_left ts q] ≤ ts[j] :=
          sorted_getElem_mono hs hblt hj hjge
        rw [abs_of_nonneg (by linarith)]
        linarith

/-- Among positions attaining the minimal distance, `nearestIdx` selects one
with the smallest timestamp (the tie-break toward the earlier record). -/
theorem nearestIdx_tie {ts : List ℚ} {q : ℚ} (hs : List.Sorted (· ≤ ·) ts)
    (hne : ts ≠ []) {j : ℕ} (hj : j < ts.length)
    (hsel : nearestIdx ts q < ts.length)
    (heq : |ts[j] - q| = |ts[nearestIdx ts q] - q|) :
    ts[nearestIdx ts q] ≤ ts[j] := by
  have hpos : 0 < ts.length := List.length_pos.mpr hne
  rcases nearestIdx_cases ts q hne with ⟨hb, hsel0⟩ | ⟨hb, hbpos, hsel0⟩ |
    ⟨hbpos, hblt, hcase⟩
  · simp only [hsel0]
    exact sorted_getElem_mono hs hpos hj (by omega)
  · have hall := bisect_left_eq_length_iff.mp hb
    have hjq : ts[j] < q := hall _ (List.getElem_mem hj)
    have hLq : ts[ts.length - 1] < q := hall _ (List.getElem_mem (by omega))
    simp only [hsel0] at heq ⊢
    rw [abs_sub_of_le (le_of_lt hLq), abs_sub_of_le (le_of_lt hjq)] at heq
    linarith
  · have hbm1 : bisect_left ts q - 1 < ts.length := by omega
    rw [getD_eq_getElem_of_lt _ _ _ hbm1, getD_eq_getElem_of_lt _ _ _ hblt] at hcase
    have hbefore : ts[bisect_left ts q - 1] < q :=
      getElem_lt_of_lt_bisect hbm1 (by omega)
    have hafter : q ≤ ts[bisect_left ts q] := le_getElem_of_eq_bisect hblt rfl
    rcases hcase with ⟨hc, hsel0⟩ | ⟨hc, hsel0⟩
    · simp only [hsel0] at heq ⊢
      rcases Nat.lt_or_ge j (bisect_left ts q - 1) with hjlt | hjge
      · have hjq : ts[j] < q := getElem_lt_of_lt_bisect hj (by omega)
        rw [abs_sub_of_le (le_of_lt hjq), abs_sub_of_le (le_of_lt hbefore)] at heq
        linarith
      · exact sorted_getElem_mono hs hbm1 hj hjge
    · simp only [hsel0] at heq ⊢
      rcases Nat.lt_or_ge j (bisect_left ts q) with hjlt | hjge
      · have hjq : ts[j] < q := getElem_lt_of_lt_bisect hj hjlt
        have hmono : ts[j] ≤ ts[bisect_left ts q - 1] :=
          sorted_getElem_mono hs hj hbm1 (by omega)
        rw [abs_sub_of_le (le_of_lt hjq), abs_of_nonneg (by linarith)] at heq
        linarith
      · exact sorted_getElem_mono hs hblt hj hjge

/-- Under strictly increasing timestamps, every position strictly before the
selected one is at strictly larger distance (hence the linear scan, which
returns the first minimiser, agrees with the binary-search selection). -/
theorem nearestIdx_strict {ts : List ℚ} {q : ℚ} (hs : List.Sorted (· < ·) ts)
    (hne : ts ≠ []) {j : ℕ} (hj : j < ts.length)
    (hsel : nearestIdx ts q < ts.length) (hjlt : j < nearestIdx ts q) :
    |ts[nearestIdx ts q] - q| < |ts[j] - q| := by
  have hpos : 0 < ts.length := List.length_pos.mpr hne
  have hsmono : ∀ (a b : ℕ), a < b → (ha : a < ts.length) → (hb : b < ts.length) →
      ts[a] < ts[b] := fun a b hab ha hb =>
    List.pairwise_iff_getElem.mp hs a b ha hb hab
  rcases nearestIdx_cases ts q hne with ⟨hb, hsel0⟩ | ⟨hb, hbpos, hsel0⟩ |
    ⟨hbpos, hblt, hcase⟩
  · omega
  · have hall := bisect_left_eq_length_iff.mp hb
    have hjq : ts[j] < q := hall _ (List.getElem_mem hj)
    have hLq : ts[ts.length - 1] < q := hall _ (List.getElem_mem (by omega))
    have hmono : ts[j] < ts[ts.length - 1] :=
      hsmono j (ts.length - 1) (by omega) hj (by omega)
    simp only [hsel0] at hjlt ⊢
    rw [abs_sub_of_le (le_of_lt hLq), abs_sub_of_le (le_of_lt hjq)]
    linarith
  · have hbm1 : bisect_left ts q - 1 < ts.length := by omega
    rw [getD_eq_getElem_of_lt _ _ _ hbm1, getD_eq_getElem_of_lt _ _ _ hblt] at hcase
    have hbefore : ts[bisect_left ts q - 1] < q :=
      getElem_lt_of_lt_bisect hbm1 (by omega)
    have hafter : q ≤ ts[bisect_left ts q] := le_getElem_of_eq_bisect hblt rfl
    rcases hcase with ⟨hc, hsel0⟩ | ⟨hc, hsel0⟩
    · simp only [hsel0] at hjlt ⊢
      have hjq : ts[j] < q := getElem_lt_of_lt_bisect hj (by omega)
      have hmono : ts[j] < ts[bisect_left ts q - 1] :=
        hsmono j (bisect_left ts q - 1) (by omega) hj hbm1
      rw [abs_sub_of_le (le_of_lt hbefore), abs_sub_of_le (le_of_lt hjq)]
      linarith
    · simp only [hsel0] at hjlt ⊢
      have hjq : ts[j] < q := getElem_lt_of_lt_bisect hj hjlt
      have hmono : ts[j] ≤ ts[bisect_left ts q - 1] := by
        rcases Nat.lt_or_ge j (bisect_left ts q - 1) with h2 | h2
        · exact le_of_lt (hsmono j (bisect_left ts q - 1) h2 hj hbm1)
        · have : j = bisect_left ts q - 1 := by omega
          subst this
          exact le_refl _
      rw [abs_of_nonneg (by linarith), abs_sub_of_le (le_of_lt hjq)]
      linarith

/-- C1: on a dataset sorted by timestamp ascending, `nearest_by_timestamp`
fails (the `EmptyDataset`-class error, modelled as `none`) exactly when the
dataset has zero records; otherwise it returns a member of the dataset whose
absolute timestamp difference to the query is minimal, with ties broken
toward the earlier candidate (the returned timestamp is the smallest among
all minimisers); a query strictly before the first record returns the first
record and one strictly after the last returns the last record. -/
theorem nearest_by_timestamp_correct (data : List Row) (q : ℚ)
    (hs : List.Sorted (· ≤ ·) (data.map Row.timestamp)) :
    (nearest_by_timestamp data q = none ↔ data = []) ∧
    (∀ r, nearest_by_timestamp data q = some r →
      r ∈ data ∧
      (∀ s ∈ data, |r.timestamp - q| ≤ |s.timestamp - q|) ∧
      (∀ s ∈ data, |s.timestamp - q| = |r.timestamp - q| → r.timestamp ≤ s.timestamp)) ∧
    (∀ r0 rest, data = r0 :: rest → q < r0.timestamp →
      nearest_by_timestamp data q = some r0) ∧
    (∀ rl, data.getLast? = some rl → rl.timestamp < q →
      nearest_by_timestamp data q = some rl) := by
  by_cases hd : data = []
  · subst hd
    refine ⟨by simp [nearest_by_timestamp], ?_, ?_, ?_⟩
    · intro r hr
      simp [nearest_by_timestamp] at hr
    · intro r0 rest h
      simp at h
    · intro rl h
      simp at h
  · have hmapne : data.map Row.timestamp ≠ [] := by
      simpa using hd
    have heq := nearest_by_timestamp_eq_getElem data q hd
    have hlen : (data.map Row.timestamp).length = data.length := by simp
    have hsel : nearestIdx (data.map Row.timestamp) q < data.length := by
      have := nearestIdx_lt_length q hmapne
      omega
    refine ⟨?_, ?_, ?_, ?_⟩
    · rw [heq]
      simp [List.getElem?_eq_getElem hsel, hd]
    · intro r hr
      rw [heq, List.getElem?_eq_getElem hsel] at hr
      have hrval : r = data[nearestIdx (data.map Row.timestamp) q] := by
        injection hr with h2
        exact h2.symm
      subst hrval
      refine ⟨List.getElem_mem hsel, ?_, ?_⟩
      · intro s hsmem
        obtain ⟨j, hj, rfl⟩ := List.mem_iff_getElem.mp hsmem
        have hmin := @nearestIdx_min (data.map Row.timestamp) q hs hmapne j (by omega) (by omega)
        simpa [List.getElem_map] using hmin
      · intro s hsmem hdist
        obtain ⟨j, hj, rfl⟩ := List.mem_iff_getElem.mp hsmem
        have htie := @nearestIdx_tie (data.map Row.timestamp) q hs hmapne j (by omega) (by omega)
        simp only [List.getElem_map] at htie
        exact htie hdist
    · intro r0 rest hdata hq
      subst hdata
      have hb : bisect_left ((r0 :: rest).map Row.timestamp) q = 0 := by
        simp only [List.map_cons]
        rw [bisect_left_cons, if_neg (by exact not_lt.mpr (le_of_lt hq))]
      rw [heq, nearestIdx_of_bisect_zero hb]
      simp
    · intro rl hlast hq
      have hLpos : 0 < data.length := List.length_pos.mpr hd
      have hrl : data[data.length - 1]? = some rl := by
        rw [← List.getLast?_eq_getElem?]
        exact hlast
      have hrl2 : data[data.length - 1] = rl := by
        rw [List.getElem?_eq_getElem (by omega)] at hrl
        injection hrl
      have hball : ∀ t ∈ data.map Row.timestamp, t < q := by
        intro t ht
        obtain ⟨j, hj, rfl⟩ := List.mem_iff_getElem.mp ht
        have hmono : (data.map Row.timestamp)[j] ≤
            (data.map Row.timestamp)[data.length - 1] :=
          sorted_getElem_mono hs (by omega) (by omega) (by omega)
        have hlastv : (data.map Row.timestamp)[data.length - 1] = rl.timestamp := by
          simp only [List.getElem_map]
          rw [hrl2]
        calc (data.map Row.timestamp)[j] ≤ rl.timestamp := by rw [← hlastv]; exact hmono
          _ < q := hq
      have hb : bisect_left (data.map Row.timestamp) q =
          (data.map Row.timestamp).length := bisect_left_eq_length_iff.mpr hball
      rw [heq, nearestIdx_of_bisect_length hb hmapne, hlen,
        List.getElem?_eq_getElem (by omega), hrl2]

/-- Witness for C1 at a concrete sorted dataset and query. -/
theorem nearest_by_timestamp_correct_witness :
    List.Sorted (· ≤ ·) (([⟨1, []⟩, ⟨4, []⟩] : List Row).map Row.timestamp) ∧
    (nearest_by_timestamp [⟨1, []⟩, ⟨4, []⟩] 2 = none ↔
      ([⟨1, []⟩, ⟨4, []⟩] : List Row) = []) :=
  ⟨by decide, (nearest_by_timestamp_correct [⟨1, []⟩, ⟨4, []⟩] 2 (by decide)).1⟩

/-! ### Helper lemmas: Python `abs`, `min` over a list, and `list.index` -/

theorem pyAbs_eq_abs (x : ℚ) : pyAbs x = |x| := by
  unfold pyAbs
  split
  · exact (abs_of_neg (by assumption)).symm
  · exact (abs_of_nonneg (not_lt.mp (by assumption))).symm

theorem pyMin_le_left (a b : ℚ) : pyMin a b ≤ a := by
  unfold pyMin
  split
  · exact le_refl a
  · exact le_of_not_le (by assumption)

theorem pyMin_le_right (a b : ℚ) : pyMin a b ≤ b := by
  unfold pyMin
  split
  · assumption
  · exact le_refl b

theorem pyMin_choice (a b : ℚ) : pyMin a b = a ∨ pyMin a b = b := by
  unfold pyMin
  split
  · exact Or.inl rfl
  · exact Or.inr rfl

theorem foldl_min_le_init (ds : List ℚ) (d : ℚ) : ds.foldl pyMin d ≤ d := by
  induction ds generalizing d with
  | nil => simp
  | cons e es ih => exact le_trans (ih (pyMin d e)) (pyMin_le_left d e)

theorem foldl_min_le_of_mem {ds : List ℚ} {x : ℚ} (d : ℚ) (h : x ∈ ds) :
    ds.foldl pyMin d ≤ x := by
  induction ds generalizing d with
  | nil => simp at h
  | cons e es ih =>
    rcases List.mem_cons.mp h with rfl | h2
    · exact le_trans (foldl_min_le_init es (pyMin d x)) (pyMin_le_right d x)
    · exact ih (pyMin d e) h2

theorem foldl_min_le_mem {ds : List ℚ} {d x : ℚ} (h : x ∈ d :: ds) :
    ds.foldl pyMin d ≤ x := by
  rcases List.mem_cons.mp h with rfl | h2
  · exact foldl_min_le_init ds x
  · exact foldl_min_le_of_mem d h2

theorem foldl_min_mem (ds : List ℚ) (d : ℚ) : ds.foldl pyMin d ∈ d :: ds := by
  induction ds generalizing d with
  | nil => simp
  | cons e es ih =>
    simp only [List.foldl_cons]
    rcases List.mem_cons.mp (ih (pyMin d e)) with heq | hmem
    · rcases pyMin_choice d e with h | h
      · rw [heq, h]
        exact List.mem_cons_self _ _
      · rw [heq, h]
        exact List.mem_cons_of_mem _ (List.mem_cons_self _ _)
    · exact List.mem_cons_of_mem _ (List.mem_cons_of_mem _ hmem)

/-- `list.index(x)` semantics: `findIdx` returns `i` when position `i`
matches and no earlier one does. -/
theorem findIdx_eq_of_first (p : ℚ → Bool) (l : List ℚ) (i : ℕ) (hi : i < l.length)
    (hp : p l[i] = true) (hmin : ∀ j (hj : j < l.length), j < i → p l[j] = false) :
    l.findIdx p = i := by
  induction l generalizing i with
  | nil => simp at hi
  | cons a as ih =>
    rw [List.findIdx_cons]
    cases i with
    | zero =>
      simp only [List.getElem_cons_zero] at hp
      simp [hp]
    | succ n =>
      have ha : p a = false := hmin 0 (by simp) (by omega)
      simp only [ha, cond_false]
      have := ih n (by simpa using hi) (by simpa using hp)
        (fun j hj hji => by simpa using hmin (j + 1) (by simpa using hj) (by omega))
      omega

/-- C2 (amended): on a dataset whose timestamps are strictly increasing (no
duplicates), the binary-search implementation `nearest_by_timestamp` and the
linear-scan implementation `find_nearest_frame_index` select the same record:
the linear scan returns an index `i`, the binary search returns exactly the
record at `i`, and that record attains the minimal absolute timestamp
distance (so tie-break and boundary behaviour coincide as well). -/
theorem nearest_implementations_agree (data : List Row) (q : ℚ)
    (hne : data ≠ [])
    (hs : List.Sorted (· < ·) (data.map Row.timestamp)) :
    ∃ i, i < data.length ∧
      find_nearest_frame_index (data.map Row.timestamp) q = some i ∧
      nearest_by_timestamp data q = data[i]? ∧
      (∀ j, j < data.length →
        |(data.map Row.timestamp).getD i 0 - q| ≤
          |(data.map Row.timestamp).getD j 0 - q|) := by
  classical
  have hsle : List.Sorted (· ≤ ·) (data.map Row.timestamp) :=
    hs.imp (fun h => le_of_lt h)
  have hmapne : data.map Row.timestamp ≠ [] := by simpa using hne
  have hlen : (data.map Row.timestamp).length = data.length := by simp
  have hsel : nearestIdx (data.map Row.timestamp) q < (data.map Row.timestamp).length :=
    nearestIdx_lt_length q hmapne
  refine ⟨nearestIdx (data.map Row.timestamp) q, by omega, ?_, ?_, ?_⟩
  · -- the linear scan finds exactly the binary-search selection
    obtain ⟨r0, rest, rfl⟩ := List.exists_cons_of_ne_nil hne
    set ts := (r0 :: rest).map Row.timestamp with hts
    set f : ℚ → ℚ := fun s => pyAbs (s - q) with hf
    have hdiffs : ts.map f = f r0.timestamp :: (rest.map Row.timestamp).map f := by
      simp [hts]
    set m := ((rest.map Row.timestamp).map f).foldl pyMin (f r0.timestamp) with hm
    have hdlen : (ts.map f).length = ts.length := by simp
    have hdiff_get : ∀ (k : ℕ) (hk : k < ts.length), (ts.map f)[k] = |ts[k] - q| := by
      intro k hk
      simp [hf, pyAbs_eq_abs]
    -- the selected position attains the minimum m
    have hmem_m : m ∈ ts.map f := by
      rw [hdiffs]
      exact foldl_min_mem _ _
    have hm_le : ∀ x ∈ ts.map f, m ≤ x := by
      intro x hx
      rw [hdiffs] at hx
      exact foldl_min_le_mem hx
    have hsel_le_m : |ts[nearestIdx ts q] - q| ≤ m := by
      obtain ⟨k, hk, hkv⟩ := List.mem_iff_getElem.mp hmem_m
      rw [← hkv, hdiff_get k (by omega)]
      exact nearestIdx_min hsle hmapne (by omega) hsel
    have hm_le_sel : m ≤ |ts[nearestIdx ts q] - q| := by
      have : |ts[nearestIdx ts q] - q| ∈ ts.map f := by
        rw [← hdiff_get _ hsel]
        exact List.getElem_mem (by omega)
      exact hm_le _ this
    have hsel_eq_m : |ts[nearestIdx ts q] - q| = m := le_antisymm hsel_le_m hm_le_sel
    have hfind : (ts.map f).findIdx (fun x => decide (x = m)) = nearestIdx ts q := by
      apply findIdx_eq_of_first _ _ _ (by omega)
      · rw [hdiff_get _ hsel, hsel_eq_m]
        simp
      · intro j hj hjlt
        rw [hdiff_get j (by omega)]
        have hstrict := @nearestIdx_strict ts q hs hmapne j (by omega) hsel hjlt
        have hne2 : ¬ (|ts[j] - q| = m) := by
          rw [← hsel_eq_m]
          intro hcontra
          rw [hcontra] at hstrict
          exact lt_irrefl _ hstrict
        simpa using hne2
    show find_nearest_frame_index ts q = some (nearestIdx ts q)
    rw [find_nearest_frame_index]
    simp only [hdiffs]
    rw [← hfind]
    simp only [hdiffs, hm]
  · exact nearest_by_timestamp_eq_getElem data q hne
  · intro j hj
    rw [getD_eq_getElem_of_lt _ _ _ (by omega), getD_eq_getElem_of_lt _ _ _ (by omega)]
    exact nearestIdx_min hsle hmapne (by omega) hsel

/-- C2 counterexample: on a dataset that is sorted (non-decreasing, as the
spec requires of timestamp datasets) but contains two records with equal
timestamps, the two implementations select different records: for the query
`5` over timestamps `[1, 1]`, `nearest_by_timestamp` returns the second
record while the linear scan `_find_nearest_frame_index` returns index `0`,
whose record differs. -/
theorem nearest_implementations_differ :
    List.Sorted (· ≤ ·)
      (([⟨1, [("a", 10)]⟩, ⟨1, [("a", 20)]⟩] : List Row).map Row.timestamp) ∧
    nearest_by_timestamp [⟨1, [("a", 10)]⟩, ⟨1, [("a", 20)]⟩] 5 =
      some ⟨1, [("a", 20)]⟩ ∧
    find_nearest_frame_index
      (([⟨1, [("a", 10)]⟩, ⟨1, [("a", 20)]⟩] : List Row).map Row.timestamp) 5 =
      some 0 ∧
    ([⟨1, [("a", 10)]⟩, ⟨1, [("a", 20)]⟩] : List Row)[0]? ≠
      some ⟨1, [("a", 20)]⟩ := by
  refine ⟨by decide, ?_, ?_, by decide⟩
  · norm_num [nearest_by_timestamp, bisect_left]
  · norm_num [find_nearest_frame_index, pyAbs, pyMin, List.findIdx_cons]

/-- Witness for the amended C2 at a concrete strictly sorted dataset. -/
theorem nearest_implementations_agree_witness :
    ([⟨1, []⟩, ⟨4, []⟩] : List Row) ≠ [] ∧
    List.Sorted (· < ·) (([⟨1, []⟩, ⟨4, []⟩] : List Row).map Row.timestamp) ∧
    ∃ i, i < ([⟨1, []⟩, ⟨4, []⟩] : List Row).length ∧
      find_nearest_frame_index
        (([⟨1, []⟩, ⟨4, []⟩] : List Row).map Row.timestamp) 2 = some i ∧
      nearest_by_timestamp [⟨1, []⟩, ⟨4, []⟩] 2 =
        ([⟨1, []⟩, ⟨4, []⟩] : List Row)[i]? ∧
      (∀ j, j < ([⟨1, []⟩, ⟨4, []⟩] : List Row).length →
        |(([⟨1, []⟩, ⟨4, []⟩] : List Row).map Row.timestamp).getD i 0 - 2| ≤
          |(([⟨1, []⟩, ⟨4, []⟩] : List Row).map Row.timestamp).getD j 0 - 2|) :=
  ⟨by decide, by decide,
    nearest_implementations_agree [⟨1, []⟩, ⟨4, []⟩] 2 (by decide) (by decide)⟩

/-! ### C3: channel-key selection in the two plotting paths -/

/-- C3 counterexample: in the `VideoSpectraViewer._plot_spectra` path the key
list is used in record order without numeric sorting (`"10"` stays before
`"2"` although 10 > 2) and a non-numeric key (`"eventID"`) is kept rather
than silently excluded. -/
theorem vsv_plot_keys_counterexample :
    vsv_plot_keys [("timestamp", 0), ("10", 1), ("2", 2), ("eventID", 3)] =
      ["10", "2", "eventID"] ∧
    parseRat "eventID" = none ∧
    parseRat "10" = some 10 ∧ parseRat "2" = some 2 ∧ ¬ ((10 : ℚ) ≤ 2) := by
  refine ⟨by decide, by decide, ?_, ?_, by norm_num⟩
  · simp +decide [parseRat, digitsToNat, isDigitCh]
  · simp +decide [parseRat, digitsToNat, isDigitCh]

/-- C3 (amended): in `MainViewerWindow._plot_spectra` the channel keys used
are exactly the non-`timestamp` numeric-parseable keys of the record, sorted
ascending by numeric value, with non-numeric keys silently excluded; in
`VideoSpectraViewer._plot_spectra` the keys used are exactly those other than
`timestamp` and integration-labelled ones, kept in raw record order (a
sublist of the record keys) — no numeric sort and no numeric-parseability
filter is applied on that path. -/
theorem plot_keys_behaviour (row : List (String × ℚ)) :
    (mainwindow_plot_keys row).Pairwise
      (fun a b => (parseRat a).getD 0 ≤ (parseRat b).getD 0) ∧
    (∀ k, k ∈ mainwindow_plot_keys row ↔
      (k ∈ row.map Prod.fst ∧ k ≠ "timestamp" ∧ (parseRat k).isSome)) ∧
    (vsv_plot_keys row).Sublist (row.map Prod.fst) ∧
    (∀ k, k ∈ vsv_plot_keys row ↔
      (k ∈ row.map Prod.fst ∧ k ≠ "timestamp" ∧
        containsSeq (lowerChars k.toList) ("integration".toList) = false)) := by
  classical
  refine ⟨?_, ?_, ?_, ?_⟩
  · haveI ht : IsTotal String (fun a b => (parseRat a).getD 0 ≤ (parseRat b).getD 0) :=
      ⟨fun a b => le_total _ _⟩
    haveI htr : IsTrans String (fun a b => (parseRat a).getD 0 ≤ (parseRat b).getD 0) :=
      ⟨fun a b c hab hbc => le_trans hab hbc⟩
    exact List.sorted_insertionSort _ _
  · intro k
    unfold mainwindow_plot_keys
    rw [List.mem_insertionSort, List.mem_filter]
    simp
  · unfold vsv_plot_keys
    exact List.filter_sublist _
  · intro k
    unfold vsv_plot_keys
    rw [List.mem_filter]
    simp

/-- Witness for the amended C3 at a concrete record. -/
theorem plot_keys_behaviour_witness :
    (mainwindow_plot_keys [("timestamp", 0), ("2", 1)]).Pairwise
      (fun a b => (parseRat a).getD 0 ≤ (parseRat b).getD 0) :=
  (plot_keys_behaviour [("timestamp", 0), ("2", 1)]).1

/-! ### C5: dark-reference subtraction condition -/

/-- C5: dark subtraction in `VideoSpectraViewer._plot_spectra` is applied
exactly when the record carries an integration time whose dark-table entry
has the same length as the channel-value vector; in every other case (no
integration time, no matching entry, length mismatch) the channel values
reach the smoothing stage unmodified.  (The extra Python truthiness test on
the dark vector changes nothing: an empty dark vector can only length-match
an empty channel vector, and then the subtracted result is that same empty
vector.) -/
theorem plot_subtracted_spec (spectra : List (String × ℚ))
    (dark_map : List (ℚ × List ℚ)) :
    plot_subtracted spectra dark_map =
      match (findIntegration spectra).bind (fun it => dark_map.lookup it) with
      | some dark =>
        if dark.length = (channel_y spectra).length then
          (channel_y spectra).zipWith (fun v d => v - d) dark
        else channel_y spectra
      | none => channel_y spectra := by
  unfold plot_subtracted
  cases hld : (findIntegration spectra).bind (fun it => dark_map.lookup it) with
  | none => rfl
  | some dark =>
    by_cases hlen : dark.length = (channel_y spectra).length
    · rcases List.eq_nil_or_concat dark with rfl | hne
      · have hy : channel_y spectra = [] := by
          have := hlen.symm
          simpa [List.length_eq_zero] using this
        simp [hy]
      · have hdark_ne : ¬ dark.isEmpty := by
          rcases hne with ⟨l, a, rfl⟩
          simp
        simp [hdark_ne, hlen]
    · simp [hlen]

/-! ### C6: smoothing output lengths on both filter paths -/

theorem lfilter_fir_length (b x : List ℚ) : (lfilter_fir b x).length = x.length := by
  simp [lfilter_fir]

theorem smooth_row_length {numtaps : ℕ} {row : List ℚ} (h : row ≠ []) :
    ∃ out, smooth_row numtaps row = some out ∧ out.length = row.length := by
  obtain ⟨a, as, rfl⟩ := List.exists_cons_of_ne_nil h
  cases hz : (a :: as).getLast? with
  | none => simp [List.getLast?_eq_none_iff] at hz
  | some z =>
    have hsr : smooth_row numtaps (a :: as) =
        some ((List.range (a :: as).length).map (fun i =>
          (List.zipWith (fun c x => c * x) (List.replicate numtaps (1 / (numtaps : ℚ)))
            (((List.replicate (numtaps / 2) a ++ (a :: as) ++
              List.replicate (numtaps / 2) z).drop i).take numtaps)).sum)) := by
      unfold smooth_row
      rw [show (a :: as).head? = some a from rfl, hz]
    exact ⟨_, hsr, by simp⟩

theorem fallback_rows_mapM {numtaps : ℕ} :
    ∀ rows : List (List ℚ), (∀ r ∈ rows, r ≠ []) →
      ∃ out, rows.mapM (smooth_row numtaps) = some out ∧
        out.map List.length = rows.map List.length := by
  intro rows
  induction rows with
  | nil => exact fun _ => ⟨[], rfl, by simp⟩
  | cons r rest ih =>
    intro hr
    obtain ⟨o, ho, holen⟩ := @smooth_row_length numtaps r
      (hr r (List.mem_cons_self _ _))
    obtain ⟨out, hout, houtlen⟩ := ih (fun s hs => hr s (List.mem_cons_of_mem _ hs))
    refine ⟨o :: out, ?_, ?_⟩
    · rw [List.mapM_cons, ho, hout]
      rfl
    · simp [holen, houtlen]

/-- C6 counterexample: on the fallback path an input containing an empty row
makes `apply_fir_filter` raise (`row[0]` is an `IndexError`), so there is no
output at all — in particular none whose rows match the input row lengths. -/
theorem apply_fir_filter_fallback_counterexample :
    apply_fir_filter_fallback [([] : List ℚ)] 101 = none := by
  rfl

/-- C6 (amended): with a positive tap count, the fallback path of
`apply_fir_filter` succeeds on every input whose rows are all non-empty and
returns one output row per input row with exactly the input row's length (it
raises `IndexError` on an empty row); the optimized path preserves all row
lengths exactly on non-empty rectangular inputs (all rows of one length,
including length zero) — on an empty input it instead returns a single empty
row (numpy's `ndim == 1` reshape to shape `(1, 0)`), and on a ragged input it
raises `ValueError` in `np.asarray`. -/
theorem apply_fir_filter_length (rows : List (List ℚ)) (numtaps : ℕ) (b : List ℚ) :
    (0 < numtaps → (∀ r ∈ rows, r ≠ []) →
      ∃ out, apply_fir_filter_fallback rows numtaps = some out ∧
        out.map List.length = rows.map List.length) ∧
    (rows ≠ [] → (∀ r ∈ rows, r.length = (rows.headD []).length) →
      ∃ out, apply_fir_filter_optimized b rows = some out ∧
        out.map List.length = rows.map List.length) ∧
    apply_fir_filter_optimized b [] = some [[]] ∧
    (rows ≠ [] → ¬ (∀ r ∈ rows, r.length = (rows.headD []).length) →
      apply_fir_filter_optimized b rows = none) := by
  refine ⟨?_, ?_, rfl, ?_⟩
  · intro hn hrows
    obtain ⟨out, hout, hlen⟩ := @fallback_rows_mapM numtaps rows hrows
    refine ⟨out, ?_, hlen⟩
    unfold apply_fir_filter_fallback
    rw [if_neg (by omega)]
    exact hout
  · intro hne hrect
    have hcond : rows.all (fun r => r.length == (rows.headD []).length) = true := by
      rw [List.all_eq_true]
      intro r hr
      simpa using hrect r hr
    refine ⟨rows.map (lfilter_fir b), ?_, ?_⟩
    · unfold apply_fir_filter_optimized
      rw [if_neg (by simpa using hne), if_pos hcond]
    · simp [List.map_map, Function.comp_def, lfilter_fir_length]
  · intro hne hnrect
    have hcond : ¬ rows.all (fun r => r.length == (rows.headD []).length) = true := by
      intro hall
      exact hnrect fun r hr => by simpa using List.all_eq_true.mp hall r hr
    unfold apply_fir_filter_optimized
    rw [if_neg (by simpa using hne), if_neg hcond]

/-- Witness for the amended C6 at a concrete input on each path. -/
theorem apply_fir_filter_length_witness :
    (∃ out, apply_fir_filter_fallback [[1, 2]] 3 = some out ∧
      out.map List.length = ([[1, 2]] : List (List ℚ)).map List.length) ∧
    (∃ out, apply_fir_filter_optimized [1] [[1, 2]] = some out ∧
      out.map List.length = ([[1, 2]] : List (List ℚ)).map List.length) :=
  ⟨(apply_fir_filter_length [[1, 2]] 3 [1]).1 (by norm_num) (by decide),
   (apply_fir_filter_length [[1, 2]] 3 [1]).2.1 (by decide) (by decide)⟩

/-! ### Helper lemmas: characters, tokens and the timestamp format -/

theorem isDigitCh_bounds {c : Char} (h : isDigitCh c = true) :
    48 ≤ c.toNat ∧ c.toNat ≤ 57 := by
  simpa [isDigitCh] using h

theorem ne_of_toNat_ne {c d : Char} (h : c.toNat ≠ d.toNat) : ¬ c = d :=
  fun he => h (by rw [he])

theorem isDigitCh_not_ws {c : Char} (h : isDigitCh c = true) : isWSCh c = false := by
  obtain ⟨h1, h2⟩ := isDigitCh_bounds h
  have hsp : ¬ c = ' ' := ne_of_toNat_ne (by simp; omega)
  have htab : ¬ c = '\t' := ne_of_toNat_ne (by simp; omega)
  have hnl : ¬ c = '\n' := ne_of_toNat_ne (by simp; omega)
  have hcr : ¬ c = '\r' := ne_of_toNat_ne (by simp; omega)
  simp [isWSCh, hsp, htab, hnl, hcr]

theorem isDigitCh_ne_comma {c : Char} (h : isDigitCh c = true) : ¬ c = ',' := by
  obtain ⟨h1, h2⟩ := isDigitCh_bounds h
  exact ne_of_toNat_ne (by simp; omega)

theorem lowerCh_of_isDigitCh {c : Char} (h : isDigitCh c = true) : lowerCh c = c := by
  obtain ⟨h1, h2⟩ := isDigitCh_bounds h
  unfold lowerCh
  rw [if_neg]
  simp
  omega

theorem lowerCh_isDigit_ne {c d : Char} (h : isDigitCh c = true)
    (hd : 96 ≤ d.toNat) : ¬ lowerCh c = d := by
  rw [lowerCh_of_isDigitCh h]
  obtain ⟨h1, h2⟩ := isDigitCh_bounds h
  exact ne_of_toNat_ne (by omega)

/-- Every character of a valid timestamp is a digit, `_` or `.`. -/
theorem isValidTs_chars {cs : List Char} (h : isValidTs cs = true) :
    ∀ c ∈ cs, isDigitCh c = true ∨ c = '_' ∨ c = '.' := by
  have h' := h
  unfold isValidTs at h'
  simp only [Bool.and_eq_true, beq_iff_eq] at h'
  obtain ⟨⟨⟨⟨⟨hd1, hlen⟩, hu⟩, hd2⟩, hp⟩, hd3⟩ := h'
  simp only [pyIsDigit, Bool.and_eq_true, List.all_eq_true] at hd1 hd2 hd3
  intro c hc
  obtain ⟨i, hi, rfl⟩ := List.mem_iff_getElem.mp hc
  rcases Nat.lt_or_ge i 8 with h8 | h8
  · left
    have : cs[i] ∈ cs.take 8 := by
      have := List.getElem_take' cs hi h8
      rw [this]
      exact List.getElem_mem _
    exact hd1.2 _ this
  · rcases Nat.eq_or_lt_of_le h8 with h8e | h8l
    · right; left
      subst h8e
      rw [← getD_eq_getElem_of_lt cs '0' 8 hi]
      exact of_decide_eq_true hu
    · rcases Nat.lt_or_ge i 15 with h15 | h15
      · left
        have hmem : cs[i] ∈ (cs.drop 9).take 6 := by
          have hdl : i - 9 < ((cs.drop 9).take 6).length := by
            simp
            omega
          have : ((cs.drop 9).take 6)[i - 9] = cs[i] := by
            rw [List.getElem_take, List.getElem_drop]
            congr 1
            omega
          rw [← this]
          exact List.getElem_mem hdl
        exact hd2.2 _ hmem
      · rcases Nat.eq_or_lt_of_le h15 with h15e | h15l
        · right; right
          subst h15e
          rw [← getD_eq_getElem_of_lt cs '0' 15 hi]
          exact of_decide_eq_true hp
        · left
          have hmem : cs[i] ∈ cs.drop 16 := by
            have hdl : i - 16 < (cs.drop 16).length := by
              simp
              omega
            have : (cs.drop 16)[i - 16] = cs[i] := by
              rw [List.getElem_drop]
              congr 1
              omega
            rw [← this]
            exact List.getElem_mem hdl
          exact hd3.2 _ hmem

theorem isValidTs_not_ws {cs : List Char} (h : isValidTs cs = true) :
    ∀ c ∈ cs, isWSCh c = false := by
  intro c hc
  rcases isValidTs_chars h c hc with hd | rfl | rfl
  · exact isDigitCh_not_ws hd
  · decide
  · decide

theorem isValidTs_no_comma {cs : List Char} (h : isValidTs cs = true) :
    ¬ ',' ∈ cs := by
  intro hc
  rcases isValidTs_chars h ',' hc with hd | he | he
  · exact absurd rfl (isDigitCh_ne_comma hd)
  · exact absurd he (by decide)
  · exact absurd he (by decide)

/-- A valid timestamp starts with a digit. -/
theorem isValidTs_head {cs : List Char} (h : isValidTs cs = true) :
    ∃ d rest, cs = d :: rest ∧ isDigitCh d = true := by
  have h' := h
  unfold isValidTs at h'
  simp only [Bool.and_eq_true, beq_iff_eq] at h'
  obtain ⟨⟨⟨⟨⟨hd1, hlen⟩, _⟩, _⟩, _⟩, _⟩ := h'
  simp only [pyIsDigit, Bool.and_eq_true, List.all_eq_true] at hd1
  cases cs with
  | nil => simp at hlen
  | cons d rest =>
    refine ⟨d, rest, rfl, ?_⟩
    exact hd1.2 d (by simp [List.take_cons])

theorem dropWhile_eq_self_of_none {p : Char → Bool} {cs : List Char}
    (h : ∀ c ∈ cs, p c = false) : cs.dropWhile p = cs := by
  cases cs with
  | nil => rfl
  | cons a l =>
    rw [List.dropWhile_cons, if_neg]
    simp [h a (List.mem_cons_self _ _)]

theorem trimChars_eq_self {cs : List Char} (h : ∀ c ∈ cs, isWSCh c = false) :
    trimChars cs = cs := by
  unfold trimChars
  rw [dropWhile_eq_self_of_none h, dropWhile_eq_self_of_none, List.reverse_reverse]
  intro c hc
  exact h c (by simpa using hc)

theorem splitOnComma_no_comma {cs : List Char} (h : ¬ ',' ∈ cs) :
    splitOnComma cs = [cs] := by
  induction cs with
  | nil => rfl
  | cons a l ih =>
    have ha : ¬ a = ',' := fun he => h (he ▸ List.mem_cons_self _ _)
    rw [show splitOnComma (a :: l) =
        if a = ',' then [] :: splitOnComma l else
          match splitOnComma l with
          | [] => [[a]]
          | p :: ps => (a :: p) :: ps from rfl]
    rw [if_neg ha, ih (fun hm => h (List.mem_cons_of_mem _ hm))]

theorem splitOnComma_append {xs ys : List Char} (h : ¬ ',' ∈ xs) :
    splitOnComma (xs ++ ',' :: ys) = xs :: splitOnComma ys := by
  induction xs with
  | nil => simp [splitOnComma]
  | cons a l ih =>
    have ha : ¬ a = ',' := fun he => h (he ▸ List.mem_cons_self _ _)
    rw [List.cons_append]
    rw [show splitOnComma (a :: (l ++ ',' :: ys)) =
        if a = ',' then [] :: splitOnComma (l ++ ',' :: ys) else
          match splitOnComma (l ++ ',' :: ys) with
          | [] => [[a]]
          | p :: ps => (a :: p) :: ps from rfl]
    rw [if_neg ha, ih (fun hm => h (List.mem_cons_of_mem _ hm))]

theorem startsWithSeq_append_self (xs ys : List Char) :
    startsWithSeq (xs ++ ys) xs = true := by
  induction xs with
  | nil => cases ys <;> rfl
  | cons a l ih => simpa [startsWithSeq] using ih

theorem contains_comma_of_append (xs ys : List Char) :
    (xs ++ ',' :: ys).contains ',' = true := by
  rw [List.contains_eq_any_beq]
  simp

theorem digitCh_isDigit {d : ℕ} (h : d < 10) : isDigitCh (digitCh d) = true := by
  interval_cases d <;> decide

theorem natDecimalGo_digits :
    ∀ (fuel n : ℕ) (acc : List Char), (∀ c ∈ acc, isDigitCh c = true) →
      ∀ c ∈ natDecimalGo fuel n acc, isDigitCh c = true := by
  intro fuel
  induction fuel with
  | zero => exact fun n acc hacc => hacc
  | succ fuel ih =>
    intro n acc hacc c hc
    rw [natDecimalGo] at hc
    by_cases h10 : n < 10
    · rw [if_pos h10] at hc
      rcases List.mem_cons.mp hc with rfl | hmem
      · exact digitCh_isDigit h10
      · exact hacc c hmem
    · rw [if_neg h10] at hc
      refine ih (n / 10) _ ?_ c hc
      intro e he
      rcases List.mem_cons.mp he with rfl | hmem
      · exact digitCh_isDigit (Nat.mod_lt _ (by omega))
      · exact hacc e hmem

theorem natDecimalGo_suffix : ∀ (fuel n : ℕ) (acc : List Char),
    ∃ pre, natDecimalGo fuel n acc = pre ++ acc := by
  intro fuel
  induction fuel with
  | zero => exact fun n acc => ⟨[], rfl⟩
  | succ fuel ih =>
    intro n acc
    rw [natDecimalGo]
    by_cases h10 : n < 10
    · rw [if_pos h10]
      exact ⟨[digitCh n], rfl⟩
    · rw [if_neg h10]
      obtain ⟨pre, hpre⟩ := ih (n / 10) (digitCh (n % 10) :: acc)
      exact ⟨pre ++ [digitCh (n % 10)], by simp [hpre]⟩

theorem natDecimal_ne_nil (n : ℕ) : natDecimal n ≠ [] := by
  unfold natDecimal
  rw [natDecimalGo]
  by_cases h10 : n < 10
  · rw [if_pos h10]
    exact List.cons_ne_nil _ _
  · rw [if_neg h10]
    obtain ⟨pre, hpre⟩ := natDecimalGo_suffix n (n / 10) (digitCh (n % 10) :: [])
    rw [hpre]
    simp

theorem natDecimal_digits (n : ℕ) : ∀ c ∈ natDecimal n, isDigitCh c = true :=
  natDecimalGo_digits (n + 1) n [] (by simp)

theorem pyIsDigit_natDecimal (n : ℕ) : pyIsDigit (natDecimal n) = true := by
  unfold pyIsDigit
  rw [Bool.and_eq_true]
  constructor
  · simpa [List.isEmpty_eq_true] using natDecimal_ne_nil n
  · rw [List.all_eq_true]
    exact natDecimal_digits n

theorem processFrameTimeLine_two_fields {tok ts : List Char}
    (hWS : ∀ c ∈ tok, isWSCh c = false) (hcomma : ¬ ',' ∈ tok)
    (hcond : startsWithSeq (lowerChars tok) ("frame".toList) = true ∨ pyIsDigit tok = true)
    (hts : isValidTs ts = true) :
    processFrameTimeLine (tok ++ ',' :: ts) = .ok (some ts) := by
  have htrim : trimChars (tok ++ ',' :: ts) = tok ++ ',' :: ts := by
    apply trimChars_eq_self
    intro c hc
    rcases List.mem_append.mp hc with hm | hm
    · exact hWS c hm
    · rcases List.mem_cons.mp hm with rfl | hm2
      · decide
      · exact isValidTs_not_ws hts c hm2
  have htr_tok : trimChars tok = tok := trimChars_eq_self hWS
  have htr_ts : trimChars ts = ts := trimChars_eq_self (isValidTs_not_ws hts)
  have hsplit : splitOnComma (tok ++ ',' :: ts) = [tok, ts] := by
    rw [splitOnComma_append hcomma, splitOnComma_no_comma (isValidTs_no_comma hts)]
  obtain ⟨d, rest, rfl, hdig⟩ := isValidTs_head hts
  have hnots : startsWithSeq (lowerChars (d :: rest))
      ['t', 'i', 'm', 'e', 's', 't', 'a', 'm', 'p'] = false := by
    show startsWithSeq (lowerCh d :: lowerChars rest) ('t' :: _) = false
    have : ¬ lowerCh d = 't' := lowerCh_isDigit_ne hdig (by decide)
    simp [startsWithSeq, this]
  have hF : ¬ d = 'F' := by
    have := isDigitCh_bounds hdig
    refine ne_of_toNat_ne ?_
    have hFv : ('F').toNat = 70 := by decide
    omega
  simp only [processFrameTimeLine, htrim, hsplit, List.map_cons, List.map_nil,
    htr_tok, htr_ts, List.headD_cons, contains_comma_of_append, List.length_cons,
    List.length_nil, List.getLastD_cons]
  rcases hcond with hcase | hcase
  · have hcase2 : startsWithSeq (lowerChars tok) ['f', 'r', 'a', 'm', 'e'] = true := by
      simpa using hcase
    simp [hcase2, hnots, hF, hts, List.getLastD]
  · simp [hcase, hnots, hF, hts, List.getLastD]

/-- A data row of the exported frame-time columns, `<digits>,<valid ts>`, is
parsed back to exactly its timestamp field. -/
theorem processFrameTimeLine_digit_row {ts : List Char} (n : ℕ)
    (hts : isValidTs ts = true) :
    processFrameTimeLine (natDecimal n ++ ',' :: ts) = .ok (some ts) := by
  apply processFrameTimeLine_two_fields
  · intro c hc
    exact isDigitCh_not_ws (natDecimal_digits n c hc)
  · intro hc
    exact absurd rfl (isDigitCh_ne_comma (natDecimal_digits n ',' hc))
  · exact Or.inr (pyIsDigit_natDecimal n)
  · exact hts

theorem collectFrameTimes_rows :
    ∀ ps : List (ℕ × List Char), (∀ p ∈ ps, isValidTs p.2 = true) →
      collectFrameTimes (ps.map (fun p => natDecimal p.1 ++ ',' :: p.2)) =
        .ok (ps.map Prod.snd) := by
  intro ps
  induction ps with
  | nil => exact fun _ => rfl
  | cons p rest ih =>
    intro hv
    rw [List.map_cons, List.map_cons]
    show collectFrameTimes (_ :: _) = _
    unfold collectFrameTimes
    rw [processFrameTimeLine_digit_row p.1 (hv p (List.mem_cons_self _ _)),
      ih (fun q hq => hv q (List.mem_cons_of_mem _ hq))]

/-! ### C4: export/re-import round trip -/

/-- C4 counterexample: exporting a one-frame dataset with `write_csv` and
re-importing the exported frame/timestamp columns with `parse_frame_times`
does not reproduce the timestamp sequence — it raises `InvalidTimestamp` on
the very first line, because the header `frame,frame_timestamp` written by
the exporter reassigns the candidate to its last field `frame_timestamp`,
which does not start with `timestamp` and hence is validated (and rejected)
instead of being skipped. -/
theorem export_reimport_fails :
    write_csv ["20230101_000000.000000".toList] ["20230101_000000.000000".toList] [] [] =
      .ok { frames := [0],
            frame_timestamps := ["20230101_000000.000000".toList],
            spectral_timestamps := ["20230101_000000.000000".toList],
            spectral_values := [], metadata := [] } ∧
    parse_frame_times (exported_frame_time_lines
      { frames := [0],
        frame_timestamps := ["20230101_000000.000000".toList],
        spectral_timestamps := ["20230101_000000.000000".toList],
        spectral_values := [], metadata := [] }) =
      .error "Invalid timestamp: frame_timestamp" :=
  ⟨rfl, rfl⟩

/-- C4 (amended): for every dataset exported via `write_csv` (non-empty,
valid-format frame times), re-importing the *data rows* of the exported
frame/timestamp columns — the exported file minus its header line —
reproduces exactly the ordered frame-timestamp sequence that was exported;
the header line itself is rejected as an invalid timestamp. -/
theorem export_reimport_roundtrip (ft sts : List (List Char))
    (cols meta : List (String × List ℚ)) (out : OutputCSV)
    (hok : write_csv ft sts cols meta = .ok out)
    (hne : ft ≠ []) (hvalid : ∀ t ∈ ft, isValidTs t = true) :
    parse_frame_times ((exported_frame_time_lines out).tail) = .ok ft := by
  simp only [write_csv] at hok
  split at hok
  · exact absurd hok (by simp)
  · rw [Except.ok.injEq] at hok
    subst hok
    have hzip : ∀ p ∈ (List.range ft.length).zip ft, isValidTs p.2 = true := by
      intro p hp
      exact hvalid p.2 (List.of_mem_zip hp).2
    have hcollect := collectFrameTimes_rows ((List.range ft.length).zip ft) hzip
    have hsnd : ((List.range ft.length).zip ft).map Prod.snd = ft :=
      List.map_snd_zip _ _ (by simp)
    simp only [exported_frame_time_lines, List.tail_cons]
    unfold parse_frame_times
    rw [hcollect, hsnd]
    simp [hne]

/-- Witness for the amended C4 at a concrete one-frame dataset. -/
theorem export_reimport_roundtrip_witness :
    parse_frame_times ((exported_frame_time_lines
      { frames := [0], frame_timestamps := ["20230101_000000.000000".toList],
        spectral_timestamps := ["20230101_000000.000000".toList],
        spectral_values := [], metadata := [] }).tail) =
      .ok ["20230101_000000.000000".toList] :=
  export_reimport_roundtrip ["20230101_000000.000000".toList]
    ["20230101_000000.000000".toList] [] [] _ rfl (by decide) (by decide)

/-! ### C7: line recognition in `parse_frame_times` -/

/-- Helper: a comma line whose first token is the literal `timestamp` is
skipped (the reassignment branch does not fire, and the whole line starts
with `timestamp`). -/
theorem ts_header_skip (rest : List Char) (hWS : ∀ c ∈ rest, isWSCh c = false) :
    processFrameTimeLine ("timestamp".toList ++ ',' :: rest) = .ok none := by
  have htrim : trimChars ("timestamp".toList ++ ',' :: rest) =
      "timestamp".toList ++ ',' :: rest := by
    apply trimChars_eq_self
    intro c hc
    rcases List.mem_append.mp hc with hm | hm
    · have hts : ∀ e ∈ ("timestamp".toList), isWSCh e = false := by decide
      exact hts c hm
    · rcases List.mem_cons.mp hm with rfl | hm2
      · decide
      · exact hWS c hm2
  have hsplit : splitOnComma ("timestamp".toList ++ ',' :: rest) =
      "timestamp".toList :: splitOnComma rest := by
    apply splitOnComma_append
    decide
  have hstart : startsWithSeq
      (lowerChars ('t' :: 'i' :: 'm' :: 'e' :: 's' :: 't' :: 'a' :: 'm' :: 'p' :: ',' :: rest))
      ['t', 'i', 'm', 'e', 's', 't', 'a', 'm', 'p'] = true := by
    show startsWithSeq (lowerChars ("timestamp".toList ++ ',' :: rest)) _ = true
    unfold lowerChars
    rw [List.map_append]
    have hl : List.map lowerCh ("timestamp".toList) = "timestamp".toList := by decide
    rw [hl]
    exact startsWithSeq_append_self _ _
  simp only [processFrameTimeLine, htrim, hsplit, List.map_cons, List.headD_cons,
    contains_comma_of_append]
  have hfr : startsWithSeq (lowerChars (trimChars
      ['t', 'i', 'm', 'e', 's', 't', 'a', 'm', 'p'])) ['f', 'r', 'a', 'm', 'e'] = false := by
    decide
  have hdg : pyIsDigit (trimChars ['t', 'i', 'm', 'e', 's', 't', 'a', 'm', 'p']) = false := by
    decide
  simp [hfr, hdg, hstart]

/-- C7 counterexample: a line whose first token case-insensitively equals
`frame` is, per the claim, a header contributing no entry; the code instead
takes its last comma-separated field as the timestamp and appends it, so
parsing the single line `frame,20230101_000000.000000` yields one entry. -/
theorem frame_header_not_skipped :
    lowerChars (((splitOnComma (trimChars
        ("frame,20230101_000000.000000".toList))).map trimChars).headD []) =
      "frame".toList ∧
    parse_frame_times ["frame,20230101_000000.000000".toList] =
      .ok ["20230101_000000.000000".toList] :=
  ⟨rfl, rfl⟩

/-- C7 (amended): per-line behaviour of `parse_frame_times`: blank lines and
literal `FILE_START` lines are skipped; a comma-containing line whose first
token is the `timestamp` header is skipped; for a line whose first token is a
bare integer — or starts with `frame`, case-insensitively — the last
comma-separated field is taken as the timestamp and validated, so a
`frame,<timestamp>` line contributes an entry instead of being skipped as a
header; a bare comma-free `timestamp` line is not skipped but rejected as an
invalid timestamp; and a skipped line contributes nothing to the result. -/
theorem parse_frame_times_line_behaviour :
    (∀ line, trimChars line = [] → processFrameTimeLine line = .ok none) ∧
    (∀ line, trimChars line = "FILE_START".toList →
      processFrameTimeLine line = .ok none) ∧
    (∀ rest, (∀ c ∈ rest, isWSCh c = false) →
      processFrameTimeLine ("timestamp".toList ++ ',' :: rest) = .ok none) ∧
    (∀ (n : ℕ) (ts : List Char), isValidTs ts = true →
      processFrameTimeLine (natDecimal n ++ ',' :: ts) = .ok (some ts)) ∧
    (∀ ts : List Char, isValidTs ts = true →
      processFrameTimeLine ("frame".toList ++ ',' :: ts) = .ok (some ts)) ∧
    processFrameTimeLine ("timestamp".toList) =
      .error "Invalid timestamp: timestamp" ∧
    (∀ line rest, processFrameTimeLine line = .ok none →
      parse_frame_times (line :: rest) = parse_frame_times rest) := by
  refine ⟨?_, ?_, ts_header_skip, ?_, ?_, rfl, ?_⟩
  · intro line h
    simp [processFrameTimeLine, h]
  · intro line h
    simp only [processFrameTimeLine, h]
    rfl
  · intro n ts h
    exact processFrameTimeLine_digit_row n h
  · intro ts h
    apply processFrameTimeLine_two_fields
    · intro c hc
      have hfr : ∀ e ∈ ("frame".toList), isWSCh e = false := by decide
      exact hfr c hc
    · decide
    · exact Or.inl (by decide)
    · exact h
  · intro line rest h
    unfold parse_frame_times
    cases hrest : collectFrameTimes rest with
    | error e =>
      have hstep : collectFrameTimes (line :: rest) = .error e := by
        unfold collectFrameTimes
        rw [h, hrest]
      rw [hstep]
    | ok ts =>
      have hstep : collectFrameTimes (line :: rest) = .ok ts := by
        unfold collectFrameTimes
        rw [h, hrest]
      rw [hstep]

/-- Witness for the amended C7 at a blank line. -/
theorem parse_frame_times_line_behaviour_witness :
    processFrameTimeLine ("  ".toList) = .ok none :=
  parse_frame_times_line_behaviour.1 ("  ".toList) (by decide)

/-! ### C10: write_csv failure wrapping on short spectral data -/

/-- C10: when the spectral dataset has fewer rows than the frame-time
sequence, `write_csv` neither pads nor silently emits a partial file: the
pandas length-mismatch failure from the `spectral_timestamp` column
assignment is caught and re-raised as an `IOError` whose message carries the
`Failed to write CSV:` context wrapping the original cause — as every
failure inside `write_csv` is; with at least as many spectral rows as frames
it succeeds, truncating the spectral data to the frame count. -/
theorem write_csv_row_mismatch (ft sts : List (List Char))
    (cols meta : List (String × List ℚ)) :
    (sts.length < ft.length →
      ∃ msg, write_csv ft sts cols meta =
        .error ("Failed to write CSV: " ++ msg)) ∧
    (ft.length ≤ sts.length →
      ∃ out, write_csv ft sts cols meta = .ok out ∧
        out.frames = List.range ft.length ∧
        out.frame_timestamps = ft ∧
        out.spectral_timestamps = sts.take ft.length) := by
  constructor
  · intro hlt
    refine ⟨"Length of values does not match length of index", ?_⟩
    simp only [write_csv]
    rw [if_pos]
    · rfl
    · simp only [List.length_take]
      omega
  · intro hle
    refine ⟨⟨List.range ft.length, ft, sts.take ft.length,
      cols.map (fun c => (c.1, c.2.take ft.length)), meta⟩, ?_, rfl, rfl, rfl⟩
    simp only [write_csv]
    rw [if_neg]
    simp only [List.length_take, ne_eq, not_not]
    omega

/-- Witness for C10 at a concrete one-frame, zero-spectral-row dataset. -/
theorem write_csv_row_mismatch_witness :
    ∃ msg, write_csv [['0']] [] [] [] = .error ("Failed to write CSV: " ++ msg) :=
  (write_csv_row_mismatch [['0']] [] [] []).1 (by decide)

/-! ### C8: per-frame metadata union export -/

theorem strLeChars_total : ∀ as bs, strLeChars as bs = true ∨ strLeChars bs as = true := by
  intro as
  induction as with
  | nil => exact fun bs => Or.inl rfl
  | cons a as ih =>
    intro bs
    cases bs with
    | nil => exact Or.inr rfl
    | cons b bs =>
      simp only [strLeChars]
      rcases Nat.lt_trichotomy a.toNat b.toNat with h | h | h
      · left
        rw [if_pos h]
      · rcases ih bs with h2 | h2
        · left
          rw [if_neg (by omega), if_neg (by omega)]
          exact h2
        · right
          rw [if_neg (by omega), if_neg (by omega)]
          exact h2
      · right
        rw [if_pos h]

theorem strLeChars_trans : ∀ as bs cs, strLeChars as bs = true →
    strLeChars bs cs = true → strLeChars as cs = true := by
  intro as
  induction as with
  | nil => exact fun bs cs _ _ => rfl
  | cons a as ih =>
    intro bs cs h1 h2
    cases bs with
    | nil => exact absurd h1 (by simp [strLeChars])
    | cons b bs =>
      cases cs with
      | nil => exact absurd h2 (by simp [strLeChars])
      | cons c cs =>
        simp only [strLeChars] at h1 h2 ⊢
        rcases Nat.lt_trichotomy a.toNat b.toNat with hab | hab | hab
        · rcases Nat.lt_trichotomy b.toNat c.toNat with hbc | hbc | hbc
          · rw [if_pos (by omega)]
          · rw [if_pos (by omega)]
          · rw [if_neg (by omega), if_pos hbc] at h2
            exact absurd h2 (by simp)
        · rcases Nat.lt_trichotomy b.toNat c.toNat with hbc | hbc | hbc
          · rw [if_pos (by omega)]
          · rw [if_neg (by omega), if_neg (by omega)]
            rw [if_neg (by omega), if_neg (by omega)] at h1
            rw [if_neg (by omega), if_neg (by omega)] at h2
            exact ih bs cs h1 h2
          · rw [if_neg (by omega), if_pos hbc] at h2
            exact absurd h2 (by simp)
        · rw [if_neg (by omega), if_pos hab] at h1
          exact absurd h1 (by simp)

theorem lookup_eq_none_iff {l : List (String × ℚ)} {k : String} :
    l.lookup k = none ↔ ¬ k ∈ l.map Prod.fst := by
  induction l with
  | nil => simp
  | cons p rest ih =>
    obtain ⟨a, b⟩ := p
    rw [List.lookup_cons]
    by_cases hk : k = a
    · subst hk
      simp
    · have hbeq : (k == a) = false := by simpa using hk
      rw [hbeq]
      simp [ih, hk]

theorem mem_fold_keys (log : List FrameMetadata) (k : String) :
    ∀ acc : List String,
      (k ∈ log.foldl (fun acc m => acc ++ m.controls.map Prod.fst) acc ↔
        k ∈ acc ∨ ∃ m ∈ log, k ∈ m.controls.map Prod.fst) := by
  induction log with
  | nil => simp
  | cons m rest ih =>
    intro acc
    rw [List.foldl_cons, ih]
    simp only [List.mem_append, List.mem_cons]
    constructor
    · rintro ((h | h) | ⟨m2, hm2, hk2⟩)
      · exact Or.inl h
      · exact Or.inr ⟨m, Or.inl rfl, h⟩
      · exact Or.inr ⟨m2, Or.inr hm2, hk2⟩
    · rintro (h | ⟨m2, (rfl | hm2), hk2⟩)
      · exact Or.inl (Or.inl h)
      · exact Or.inl (Or.inr hk2)
      · exact Or.inr ⟨m2, hm2, hk2⟩

theorem metadata_all_keys_spec (log : List FrameMetadata) :
    (metadata_all_keys log).Pairwise (fun a b => strLe a b = true) ∧
    (metadata_all_keys log).Nodup ∧
    (∀ k, k ∈ metadata_all_keys log ↔ ∃ m ∈ log, k ∈ m.controls.map Prod.fst) := by
  haveI ht : IsTotal String (fun a b => strLe a b = true) :=
    ⟨fun a b => strLeChars_total a.toList b.toList⟩
  haveI htr : IsTrans String (fun a b => strLe a b = true) :=
    ⟨fun a b c => strLeChars_trans a.toList b.toList c.toList⟩
  refine ⟨List.sorted_insertionSort _ _, ?_, ?_⟩
  · unfold metadata_all_keys
    rw [(List.perm_insertionSort _ _).nodup_iff]
    exact List.nodup_dedup _
  · intro k
    unfold metadata_all_keys
    rw [List.mem_insertionSort, List.mem_dedup, mem_fold_keys]
    simp

/-- C8: for every non-empty control log, `save_metadata` decides a header
whose first column is `timestamp` followed by the alphabetically sorted,
duplicate-free union of all control keys observed across every record, and
one row per record whose cell at a key is empty (`none`) exactly when the
record lacks that key; the spec's own two-record example is reproduced
verbatim. -/
theorem save_metadata_spec (log : List FrameMetadata) (hne : log ≠ []) :
    (∃ keys rows, save_metadata_out log = some ("timestamp" :: keys, rows) ∧
      keys.Pairwise (fun a b => strLe a b = true) ∧ keys.Nodup ∧
      (∀ k, k ∈ keys ↔ ∃ m ∈ log, k ∈ m.controls.map Prod.fst) ∧
      rows = log.map (fun m =>
        (m.timestamp, keys.map (fun k => m.controls.lookup k))) ∧
      (∀ m ∈ log, ∀ k ∈ keys,
        (m.controls.lookup k = none ↔ ¬ k ∈ m.controls.map Prod.fst))) ∧
    save_metadata_out [⟨0, [("a", 1)]⟩, ⟨1, [("b", 2)]⟩] =
      some (["timestamp", "a", "b"],
        [(0, [some 1, none]), (1, [none, some 2])]) := by
  constructor
  · obtain ⟨hsorted, hnodup, hmem⟩ := metadata_all_keys_spec log
    refine ⟨metadata_all_keys log, _, ?_, hsorted, hnodup, hmem, rfl, ?_⟩
    · simp [save_metadata_out, hne]
    · intro m _ k _
      exact lookup_eq_none_iff
  · rfl

/-- Witness for C8 at the spec's example log. -/
theorem save_metadata_spec_witness :
    save_metadata_out [⟨0, [("a", 1)]⟩, ⟨1, [("b", 2)]⟩] =
      some (["timestamp", "a", "b"],
        [(0, [some 1, none]), (1, [none, some 2])]) :=
  (save_metadata_spec [⟨0, [("a", 1)]⟩, ⟨1, [("b", 2)]⟩] (by decide)).2

/-! ### C9: flushing the edited metadata table -/

/-- The fields committed by `_save_metadata_from_table`: in column order, one
entry per cell whose header and item exist and whose text parses. -/
def tableCommits (cells : List (Option String × Option String)) : List (String × ℚ) :=
  cells.filterMap (fun cell =>
    match cell with
    | (some h, some t) => (parseRat t).map (fun v => (h, v))
    | _ => none)

/-- The warnings emitted by `_save_metadata_from_table`. -/
def tableWarnings (cells : List (Option String × Option String)) : List String :=
  cells.filterMap (fun cell =>
    match cell with
    | (some h, some t) =>
      match parseRat t with
      | none => some ("Invalid value in column " ++ h)
      | some _ => none
    | _ => none)

theorem dictInsert_of_not_mem {d : List (String × ℚ)} {k : String} {v : ℚ}
    (h : ¬ k ∈ d.map Prod.fst) : dictInsert d k v = d ++ [(k, v)] := by
  unfold dictInsert
  rw [if_neg]
  simp only [List.any_eq_true, decide_eq_true_eq, not_exists]
  intro p hp
  exact h (hp.2 ▸ List.mem_map_of_mem Prod.fst hp.1)

theorem table_foldl_spec :
    ∀ (cells : List (Option String × Option String))
      (accC : List (String × ℚ)) (accW : List String),
      (∀ k ∈ accC.map Prod.fst, ¬ k ∈ cells.filterMap Prod.fst) →
      (cells.filterMap Prod.fst).Nodup →
      cells.foldl
        (fun acc cell =>
          match cell with
          | (some header, some text) =>
            match parseRat text with
            | some v => (dictInsert acc.1 header v, acc.2)
            | none => (acc.1, acc.2 ++ ["Invalid value in column " ++ header])
          | _ => acc)
        (accC, accW) =
      (accC ++ tableCommits cells, accW ++ tableWarnings cells) := by
  intro cells
  induction cells with
  | nil =>
    intro accC accW _ _
    simp [tableCommits, tableWarnings]
  | cons cell rest ih =>
    intro accC accW hdisj hnd
    obtain ⟨ho, tv⟩ := cell
    rw [List.foldl_cons]
    cases ho with
    | none =>
      have hrest : (rest.filterMap Prod.fst).Nodup := by
        simpa [List.filterMap_cons] using hnd
      have hdisj2 : ∀ k ∈ accC.map Prod.fst, ¬ k ∈ rest.filterMap Prod.fst := by
        intro k hk
        have := hdisj k hk
        simpa [List.filterMap_cons] using this
      simpa [tableCommits, tableWarnings, List.filterMap_cons] using
        ih accC accW hdisj2 hrest
    | some h =>
      have hhead : h ∈ ((some h, tv) :: rest).filterMap Prod.fst := by
        simp [List.filterMap_cons]
      have hnd2 : (rest.filterMap Prod.fst).Nodup ∧
          ¬ h ∈ rest.filterMap Prod.fst := by
        rw [List.filterMap_cons] at hnd
        simp only [] at hnd
        exact ⟨(List.nodup_cons.mp hnd).2, (List.nodup_cons.mp hnd).1⟩
      have hdisj2 : ∀ k ∈ accC.map Prod.fst, ¬ k ∈ rest.filterMap Prod.fst := by
        intro k hk hmem
        exact hdisj k hk (by simp [List.filterMap_cons, hmem])
      cases tv with
      | none =>
        simpa [tableCommits, tableWarnings, List.filterMap_cons] using
          ih accC accW hdisj2 hnd2.1
      | some t =>
        cases hp : parseRat t with
        | some v =>
          have hnotmem : ¬ h ∈ accC.map Prod.fst := fun hm => hdisj h hm hhead
          have hdisj3 : ∀ k ∈ (accC ++ [(h, v)]).map Prod.fst,
              ¬ k ∈ rest.filterMap Prod.fst := by
            intro k hk
            simp only [List.map_append, List.mem_append, List.map_cons,
              List.map_nil, List.mem_cons, List.not_mem_nil, or_false] at hk
            rcases hk with hk | rfl
            · exact hdisj2 k hk
            · exact hnd2.2
          have := ih (accC ++ [(h, v)]) accW hdisj3 hnd2.1
          simp only [show (fun acc (cell : Option String × Option String) =>
            match cell with
            | (some header, some text) =>
              match parseRat text with
              | some v => (dictInsert acc.1 header v, acc.2)
              | none => (acc.1, acc.2 ++ ["Invalid value in column " ++ header])
            | _ => acc) (accC, accW) (some h, some t) =
              (match parseRat t with
              | some v => (dictInsert accC h v, accW)
              | none => (accC, accW ++ ["Invalid value in column " ++ h])) from rfl,
            tableCommits, tableWarnings, List.filterMap_cons, hp,
            dictInsert_of_not_mem hnotmem, this]
          simp
        | none =>
          have hstep : (match parseRat t with
              | some v => (dictInsert accC h v, accW)
              | none => (accC, accW ++ ["Invalid value in column " ++ h])) =
              (accC, accW ++ ["Invalid value in column " ++ h]) := by
            rw [hp]
          have := ih accC (accW ++ ["Invalid value in column " ++ h]) hdisj2 hnd2.1
          simp only [show (fun acc (cell : Option String × Option String) =>
            match cell with
            | (some header, some text) =>
              match parseRat text with
              | some v => (dictInsert acc.1 header v, acc.2)
              | none => (acc.1, acc.2 ++ ["Invalid value in column " ++ header])
            | _ => acc) (accC, accW) (some h, some t) =
              (match parseRat t with
              | some v => (dictInsert accC h v, accW)
              | none => (accC, accW ++ ["Invalid value in column " ++ h])) from rfl,
            hstep, this, tableCommits, tableWarnings, List.filterMap_cons, hp]
          simp

theorem save_metadata_from_table_eq
    (cells : List (Option String × Option String))
    (hnd : (cells.filterMap Prod.fst).Nodup) :
    save_metadata_from_table cells = (tableCommits cells, tableWarnings cells) := by
  unfold save_metadata_from_table
  simpa using table_foldl_spec cells [] [] (by simp) hnd

theorem header_unique {cells : List (Option String × Option String)}
    (hnd : (cells.filterMap Prod.fst).Nodup) {h : String} {t t' : Option String}
    (h1 : (some h, t) ∈ cells) (h2 : (some h, t') ∈ cells) : t = t' := by
  by_contra hne
  obtain ⟨s1, s2, rfl⟩ := List.append_of_mem h1
  rw [List.filterMap_append, List.filterMap_cons] at hnd
  simp only [] at hnd
  have h2' : (some h, t') ∈ s1 ∨ (some h, t') ∈ s2 := by
    rcases List.mem_append.mp h2 with hm | hm
    · exact Or.inl hm
    · rcases List.mem_cons.mp hm with he | hm2
      · exact absurd (congrArg Prod.snd he).symm hne
      · exact Or.inr hm2
  rw [List.nodup_append] at hnd
  obtain ⟨hn1, hn2, hdisj⟩ := hnd
  rcases h2' with hm | hm
  · have : h ∈ List.filterMap Prod.fst s1 := List.mem_filterMap.mpr ⟨_, hm, rfl⟩
    exact hdisj this (List.mem_cons_self _ _)
  · have : h ∈ List.filterMap Prod.fst s2 := List.mem_filterMap.mpr ⟨_, hm, rfl⟩
    exact (List.nodup_cons.mp hn2).1 this

/-- C9: flushing the edited metadata table back to the current record (table
headers are distinct, as they come from the dict keys) commits every column
whose value parses as a number to the record's controls, reports a non-fatal
warning naming any column whose value fails to parse, and drops exactly that
failing field from the update while all other fields still commit; nothing
else is committed. -/
theorem save_metadata_from_table_spec
    (cells : List (Option String × Option String))
    (hnd : (cells.filterMap Prod.fst).Nodup) :
    (∀ h t v, (some h, some t) ∈ cells → parseRat t = some v →
      (h, v) ∈ (save_metadata_from_table cells).1) ∧
    (∀ h v, (h, v) ∈ (save_metadata_from_table cells).1 →
      ∃ t, (some h, some t) ∈ cells ∧ parseRat t = some v) ∧
    (∀ h t, (some h, some t) ∈ cells → parseRat t = none →
      ¬ h ∈ (save_metadata_from_table cells).1.map Prod.fst ∧
      ("Invalid value in column " ++ h) ∈ (save_metadata_from_table cells).2) := by
  have heq := save_metadata_from_table_eq cells hnd
  rw [heq]
  have hback : ∀ h v, (h, v) ∈ tableCommits cells →
      ∃ t, (some h, some t) ∈ cells ∧ parseRat t = some v := by
    intro h v hmem
    obtain ⟨cell, hcell, hf⟩ := List.mem_filterMap.mp hmem
    obtain ⟨ho, tv⟩ := cell
    cases ho with
    | none => simp at hf
    | some h2 =>
      cases tv with
      | none => simp at hf
      | some t =>
        simp only [Option.map_eq_some'] at hf
        obtain ⟨v2, hv2, he⟩ := hf
        rw [Prod.mk.injEq] at he
        obtain ⟨rfl, rfl⟩ := he
        exact ⟨t, hcell, hv2⟩
  refine ⟨?_, hback, ?_⟩
  · intro h t v hcell hp
    exact List.mem_filterMap.mpr ⟨(some h, some t), hcell, by simp [hp]⟩
  · intro h t hcell hp
    constructor
    · intro hmem
      obtain ⟨⟨h2, v⟩, hcm, hfst⟩ := List.mem_map.mp hmem
      simp only [] at hfst
      subst hfst
      obtain ⟨t', hcell2, hp2⟩ := hback _ _ hcm
      have := header_unique hnd hcell hcell2
      injection this with hti
      rw [hti, hp2] at hp
      exact absurd hp (by simp)
    · exact List.mem_filterMap.mpr ⟨(some h, some t), hcell, by simp [hp]⟩

/-- Witness for C9 at a concrete one-column table. -/
theorem save_metadata_from_table_spec_witness :
    ("a", (1 : ℚ)) ∈ (save_metadata_from_table [(some "a", some "1")]).1 :=
  (save_metadata_from_table_spec [(some "a", some "1")] (by decide)).1 "a" "1" 1
    (by decide) (by simp +decide [parseRat, digitsToNat, isDigitCh])

end VidView
